import Mathlib

/-!
Verification of the Newton-fractal renderer (src/main.cpp) against its
natural-language specification.  The C++ code is shallowly embedded:
`float`/`double` arithmetic is modelled by exact real arithmetic (ℝ/ℂ),
byte channels by ℕ, and the fixed-bound loops by structural recursion.
-/

namespace NewtonFractal

open Finset

/-- The convergence / near-zero tolerance: `constexpr auto tolerance = 0.000001`
(src/main.cpp line 68). -/
noncomputable def tol : ℝ := 1 / 1000000

/-- `ispc::color`: four byte channels (r, g, b, a), modelled as naturals. -/
structure IColor where
  r : ℕ
  g : ℕ
  b : ℕ
  a : ℕ
deriving DecidableEq

/-- raylib `Color`: four byte channels. -/
structure RColor where
  r : ℕ
  g : ℕ
  b : ℕ
  a : ℕ
deriving DecidableEq

/-- raylib's `DARKGREEN` constant: `(Color){ 0, 117, 44, 255 }`. -/
def DARKGREEN : RColor := ⟨0, 117, 44, 255⟩

/-- `to_raylib` (src/main.cpp lines 58-61): `return {clr.r, clr.g, clr.b, 255};`
the fourth component of the `ispc::color` is discarded and alpha is forced to 255. -/
def to_raylib (c : IColor) : RColor := ⟨c.r, c.g, c.b, 255⟩

/-- The external raylib routine `ColorBrightness(Color, float factor)` called by the
kernel: the factor is clamped to [-1, 1]; a negative factor scales each channel by
(1 + factor), a nonnegative factor moves each channel toward 255 by the factor;
the float result is truncated to a byte (values stay in [0,255], so truncation is
`Int.floor`).  Alpha is untouched. -/
noncomputable def ColorBrightness (c : RColor) (factor : ℝ) : RColor :=
  let f : ℝ := if factor > 1 then 1 else if factor < -1 then -1 else factor
  if f < 0 then
    ⟨(⌊(c.r : ℝ) * (1 + f)⌋).toNat, (⌊(c.g : ℝ) * (1 + f)⌋).toNat,
     (⌊(c.b : ℝ) * (1 + f)⌋).toNat, c.a⟩
  else
    ⟨(⌊(255 - (c.r : ℝ)) * f + c.r⌋).toNat, (⌊(255 - (c.g : ℝ)) * f + c.g⌋).toNat,
     (⌊(255 - (c.b : ℝ)) * f + c.b⌋).toNat, c.a⟩

/-- An `ispc::float2` root-table entry, interpreted as a complex number. -/
noncomputable def toC (p : ℝ × ℝ) : ℂ := ⟨p.1, p.2⟩

/-- `function` (src/main.cpp lines 48-51): f(z) = z^n - 1. -/
noncomputable def functionF (z : ℂ) (n : ℕ) : ℂ := z ^ n - 1

/-- `derivative` (src/main.cpp lines 53-56): f'(z) = n * z^(n-1).
(Faithful for n ≥ 1; the C++ version would wrap `n-1` for n = 0.) -/
noncomputable def derivativeF (z : ℂ) (n : ℕ) : ℂ := (n : ℂ) * z ^ (n - 1)

/-- The Newton update `z -= function(z,n) / deriv` (src/main.cpp line 71). -/
noncomputable def newton_update (z : ℂ) (n : ℕ) : ℂ :=
  z - functionF z n / derivativeF z n

/-- The inner root scan (src/main.cpp lines 73-81): walk the root table in index
order and return the index of the first root whose distance to z is strictly
below the tolerance (`abs(difference) < tolerance`). -/
noncomputable def scanRoots : List (ℝ × ℝ) → ℂ → Option ℕ
  | [], _ => none
  | p :: ps, z =>
      if Complex.abs (z - toC p) < tol then some 0
      else (scanRoots ps z).map Nat.succ

/-- The iteration loop of `calculate_single_pixel` (src/main.cpp lines 66-82),
by remaining iteration budget: check the derivative guard, apply the Newton
update, scan the root table; on a match return the matched root's paired color
brightened by (-2 * root_index)/42 + 0.5 (both loops use the variable `i`, the
inner root index shadowing the outer iteration counter). -/
noncomputable def pixel_loop (roots : List (ℝ × ℝ)) (colors : List IColor) :
    ℕ → ℂ → RColor
  | 0, _ => DARKGREEN
  | fuel + 1, z =>
      let n := roots.length
      if Complex.abs (derivativeF z n) ≤ tol then DARKGREEN
      else
        let z' := newton_update z n
        match scanRoots roots z' with
        | some i =>
            ColorBrightness (to_raylib (colors.getD i ⟨0, 0, 0, 0⟩))
              ((-2 * (i : ℝ)) / 42 + 1 / 2)
        | none => pixel_loop roots colors fuel z'

/-- `calculate_single_pixel` (src/main.cpp lines 63-84): at most 42 iterations,
falling back to `DARKGREEN`. -/
noncomputable def calculate_single_pixel (z : ℂ) (roots : List (ℝ × ℝ))
    (colors : List IColor) : RColor :=
  pixel_loop roots colors 42 z

/-- Instrumented twin of `pixel_loop`: instead of a color it reports which root
index matched and at which iteration (1-based count of Newton updates
performed), or `none` for the fallback outcome. -/
noncomputable def trace_loop (roots : List (ℝ × ℝ)) : ℕ → ℂ → Option (ℕ × ℕ)
  | 0, _ => none
  | fuel + 1, z =>
      let n := roots.length
      if Complex.abs (derivativeF z n) ≤ tol then none
      else
        let z' := newton_update z n
        match scanRoots roots z' with
        | some i => some (i, 1)
        | none => (trace_loop roots fuel z').map fun p => (p.1, p.2 + 1)

/-- `calculate_roots` (src/main.cpp lines 112-121):
root i = exp(I * (2*pi*i/n)) stored as (real part, imaginary part). -/
noncomputable def calculate_roots (n : ℕ) : List (ℝ × ℝ) :=
  List.ofFn fun i : Fin n =>
    (Real.cos (2 * Real.pi * i / n), Real.sin (2 * Real.pi * i / n))

/-- The five literal colors of `set_colors` (src/main.cpp lines 125-132). -/
def initColors : List IColor :=
  [⟨255, 109, 194, 255⟩, ⟨200, 122, 255, 255⟩, ⟨135, 60, 190, 255⟩,
   ⟨112, 31, 126, 255⟩, ⟨0, 82, 172, 255⟩]

/-- `std::vector::resize(n)`: truncate or pad with value-initialized
(all-zero) elements. -/
def resizeColors (l : List IColor) (n : ℕ) : List IColor :=
  l.take n ++ List.replicate (n - l.length) ⟨0, 0, 0, 0⟩

/-- One body of the color-generation loop (src/main.cpp lines 138-140): the three
sequential conditionals on i % 3, each bumping one channel by 100 modulo 255. -/
def colorStep (i : ℕ) (c : IColor) : IColor :=
  let c1 := if i % 3 = 0 then { c with r := (c.r + 100) % 255 } else c
  let c2 := if i % 3 = 1 then { c1 with g := (c1.g + 100) % 255 } else c1
  if i % 3 = 2 then { c2 with b := (c2.b + 100) % 255 } else c2

/-- The loop `for(int i=5; i<n; ++i)` of `set_colors` (src/main.cpp lines
136-142), as recursion on the remaining count: update `current`, then store it
at index i. -/
def color_loop : ℕ → ℕ → IColor → List IColor → List IColor
  | 0, _, _, acc => acc
  | m + 1, i, cur, acc =>
      let cur' := colorStep i cur
      color_loop m (i + 1) cur' (acc.set i cur')

/-- `set_colors` (src/main.cpp lines 123-144): the literal five-entry vector,
resized to n, then the generation loop starting from `current = {245, 109, 194}`
(aggregate initialization: the unmentioned fourth component is 0). -/
def set_colors (n : ℕ) : List IColor :=
  color_loop (n - 5) 5 ⟨245, 109, 194, 0⟩ (resizeColors initColors n)

/-- The running color state of the claim: the value of `current` after the loop
bodies for indices 5, …, 5+k-1 have run. -/
def loopState : ℕ → IColor
  | 0 => ⟨245, 109, 194, 0⟩
  | k + 1 => colorStep (5 + k) (loopState k)

/-- `ispc::area`: the viewport rectangle (lower_x, upper_x, lower_y, upper_y),
initialized in main as `{-2.0f, 2.0f, -2.0f, 2.0f}`. -/
structure Area where
  lower_x : ℝ
  upper_x : ℝ
  lower_y : ℝ
  upper_y : ℝ

/-- The pixel-to-complex-plane mapping of `calculate_pixels`
(src/main.cpp lines 92-100): fraction = pixel/extent, then linear
interpolation from the lower bound. -/
noncomputable def pixel_to_complex (a : Area) (x y W H : ℕ) : ℂ :=
  let fraction_x : ℝ := (x : ℝ) / W
  let zx : ℝ := fraction_x * (a.upper_x - a.lower_x) + a.lower_x
  let fraction_y : ℝ := (y : ℝ) / H
  let zy : ℝ := fraction_y * (a.upper_y - a.lower_y) + a.lower_y
  ⟨zx, zy⟩

/-- The four byte stores of one pixel (src/main.cpp lines 104-107), on a buffer
modelled as an index-to-byte function. -/
def writePixel (W x y : ℕ) (c : RColor) (buf : ℕ → ℕ) : ℕ → ℕ :=
  fun k =>
    if k = (y * W + x) * 4 then c.r
    else if k = (y * W + x) * 4 + 1 then c.g
    else if k = (y * W + x) * 4 + 2 then c.b
    else if k = (y * W + x) * 4 + 3 then c.a
    else buf k

/-- Byte j of a color's four-byte RGBA encoding. -/
def rchannel (j : ℕ) (c : RColor) : ℕ :=
  if j = 0 then c.r else if j = 1 then c.g else if j = 2 then c.b else c.a

/-- `calculate_pixels` (src/main.cpp lines 86-110): the row-major double loop,
writing the kernel color of every pixel into the RGBA buffer. -/
noncomputable def calculate_pixels (W H : ℕ) (a : Area) (roots : List (ℝ × ℝ))
    (colors : List IColor) (buf : ℕ → ℕ) : ℕ → ℕ :=
  (List.range H).foldl
    (fun b y =>
      (List.range W).foldl
        (fun b' x =>
          writePixel W x y
            (calculate_single_pixel (pixel_to_complex a x y W H) roots colors) b')
        b)
    buf

/-- `zoom` (src/main.cpp lines 33-46): rescale each axis about its center. -/
noncomputable def zoom (a : Area) (factor : ℝ) : Area :=
  let x_range := a.upper_x - a.lower_x
  let x_center := a.lower_x + x_range / 2
  let y_range := a.upper_y - a.lower_y
  let y_center := a.lower_y + y_range / 2
  ⟨x_center - x_range * factor / 2, x_center + x_range * factor / 2,
   y_center - y_range * factor / 2, y_center + y_range * factor / 2⟩

/-- The six navigation commands handled by `show_image_on_screen`
(src/main.cpp lines 158-193). -/
inductive NavOp
  | zoomIn
  | zoomOut
  | panUp
  | panDown
  | panLeft
  | panRight

/-- One key-handling step of `show_image_on_screen`: zooms use the constant
factors 0.9 / 1.1 and rescale the movement step by the same factor; pans
translate both bounds of one axis by the current movement step. -/
noncomputable def applyNav : Area × ℝ → NavOp → Area × ℝ
  | (a, step), NavOp.zoomIn => (zoom a (9 / 10), step * (9 / 10))
  | (a, step), NavOp.zoomOut => (zoom a (11 / 10), step * (11 / 10))
  | (a, step), NavOp.panUp =>
      ({ a with lower_y := a.lower_y - step, upper_y := a.upper_y - step }, step)
  | (a, step), NavOp.panDown =>
      ({ a with lower_y := a.lower_y + step, upper_y := a.upper_y + step }, step)
  | (a, step), NavOp.panLeft =>
      ({ a with lower_x := a.lower_x - step, upper_x := a.upper_x - step }, step)
  | (a, step), NavOp.panRight =>
      ({ a with lower_x := a.lower_x + step, upper_x := a.upper_x + step }, step)

/-- The viewport state after a finite sequence of navigation commands, starting
from the initial viewport (-2, 2, -2, 2) and movement step 0.1. -/
noncomputable def navigate (ops : List NavOp) : Area × ℝ :=
  ops.foldl applyNav (⟨-2, 2, -2, 2⟩, 1 / 10)

/-- Claim C1 as stated by the spec (its scan condition is `distance ≤ 1e-6`):
whenever the derivative check passes and, after the Newton update, root i is the
first root of the table at distance ≤ tolerance from the updated value, the
kernel is claimed to return color i brightened by (-2 i)/42 + 0.5. -/
noncomputable def spec_claim_C1 : Prop :=
  ∀ (roots : List (ℝ × ℝ)) (colors : List IColor) (z : ℂ) (fuel i : ℕ),
    ¬ Complex.abs (derivativeF z roots.length) ≤ tol →
    i < roots.length →
    Complex.abs (newton_update z roots.length - toC (roots.getD i (0, 0))) ≤ tol →
    (∀ j, j < i →
      ¬ Complex.abs (newton_update z roots.length - toC (roots.getD j (0, 0))) ≤ tol) →
    pixel_loop roots colors (fuel + 1) z =
      ColorBrightness (to_raylib (colors.getD i ⟨0, 0, 0, 0⟩))
        ((-2 * (i : ℝ)) / 42 + 1 / 2)

/-- Claim C2 as stated by the spec: the shading of the returned color depends on
how many iterations were needed, so two starting points that converge to the
same root after different numbers of Newton updates receive different colors. -/
noncomputable def spec_claim_C2 : Prop :=
  ∀ (roots : List (ℝ × ℝ)) (colors : List IColor) (z z' : ℂ) (i k k' : ℕ),
    trace_loop roots 42 z = some (i, k) →
    trace_loop roots 42 z' = some (i, k') →
    k ≠ k' →
    calculate_single_pixel z roots colors ≠ calculate_single_pixel z' roots colors

/-- Claim C3 as stated by the spec: for every degree n ≥ 1, every root index i
and every start z0 strictly within tolerance of root i, the kernel converges at
the very first iteration and returns color i brightened accordingly. -/
noncomputable def spec_claim_C3 : Prop :=
  ∀ (n i : ℕ) (z0 : ℂ), 1 ≤ n → i < n →
    Complex.abs (z0 - toC ((calculate_roots n).getD i (0, 0))) < tol →
    trace_loop (calculate_roots n) 42 z0 = some (i, 1) ∧
    calculate_single_pixel z0 (calculate_roots n) (set_colors n) =
      ColorBrightness (to_raylib ((set_colors n).getD i ⟨0, 0, 0, 0⟩))
        ((-2 * (i : ℝ)) / 42 + 1 / 2)

/-- The viewport invariant of the spec: positive extent on both axes. -/
def areaInv (a : Area) : Prop := a.lower_x < a.upper_x ∧ a.lower_y < a.upper_y

/-- Iterating the color-generation loop body from state `cur` at start index
`i₀` for `k` steps (generalization of `loopState` used in the loop induction). -/
def stepFrom (cur : IColor) (i₀ : ℕ) : ℕ → IColor
  | 0 => cur
  | k + 1 => stepFrom (colorStep i₀ cur) (i₀ + 1) k

/- ------------------------------------------------------------------ -/
/- Helper lemmas -/
/- ------------------------------------------------------------------ -/

theorem pixel_loop_succ (roots : List (ℝ × ℝ)) (colors : List IColor)
    (fuel : ℕ) (z : ℂ) :
    pixel_loop roots colors (fuel + 1) z =
      if Complex.abs (derivativeF z roots.length) ≤ tol then DARKGREEN
      else
        match scanRoots roots (newton_update z roots.length) with
        | some i =>
            ColorBrightness (to_raylib (colors.getD i ⟨0, 0, 0, 0⟩))
              ((-2 * (i : ℝ)) / 42 + 1 / 2)
        | none => pixel_loop roots colors fuel (newton_update z roots.length) :=
  rfl

theorem trace_loop_succ (roots : List (ℝ × ℝ)) (fuel : ℕ) (z : ℂ) :
    trace_loop roots (fuel + 1) z =
      if Complex.abs (derivativeF z roots.length) ≤ tol then none
      else
        match scanRoots roots (newton_update z roots.length) with
        | some i => some (i, 1)
        | none =>
            (trace_loop roots fuel (newton_update z roots.length)).map
              fun p => (p.1, p.2 + 1) :=
  rfl

theorem stepFrom_succ_right (k : ℕ) : ∀ (cur : IColor) (i : ℕ),
    stepFrom cur i (k + 1) = colorStep (i + k) (stepFrom cur i k) := by
  induction k with
  | zero => intro cur i; rfl
  | succ k ih =>
      intro cur i
      show stepFrom (colorStep i cur) (i + 1) (k + 1) = _
      rw [ih]
      have : i + 1 + k = i + (k + 1) := by omega
      rw [this]
      rfl

theorem loopState_eq_stepFrom (k : ℕ) :
    loopState k = stepFrom ⟨245, 109, 194, 0⟩ 5 k := by
  induction k with
  | zero => rfl
  | succ k ih =>
      show colorStep (5 + k) (loopState k) = _
      rw [ih, stepFrom_succ_right]

theorem color_loop_length (m : ℕ) : ∀ (i : ℕ) (cur : IColor) (acc : List IColor),
    (color_loop m i cur acc).length = acc.length := by
  induction m with
  | zero => intro i cur acc; rfl
  | succ m ih =>
      intro i cur acc
      show (color_loop m (i + 1) _ (acc.set i _)).length = _
      rw [ih, List.length_set]

theorem color_loop_getElem_lt (m : ℕ) : ∀ (i : ℕ) (cur : IColor)
    (acc : List IColor) (j : ℕ), j < i →
    (color_loop m i cur acc)[j]? = acc[j]? := by
  induction m with
  | zero => intro i cur acc j _; rfl
  | succ m ih =>
      intro i cur acc j hj
      show (color_loop m (i + 1) _ (acc.set i _))[j]? = _
      rw [ih _ _ _ _ (by omega), List.getElem?_set_ne (by omega)]

theorem color_loop_getElem_ge (m : ℕ) : ∀ (i : ℕ) (cur : IColor)
    (acc : List IColor) (j : ℕ), i ≤ j → j < i + m → j < acc.length →
    (color_loop m i cur acc)[j]? = some (stepFrom cur i (j - i + 1)) := by
  induction m with
  | zero => intro i cur acc j h1 h2 _; omega
  | succ m ih =>
      intro i cur acc j h1 h2 hlen
      show (color_loop m (i + 1) (colorStep i cur) (acc.set i (colorStep i cur)))[j]? = _
      rcases Nat.eq_or_lt_of_le h1 with rfl | hlt
      · rw [color_loop_getElem_lt _ _ _ _ _ (by omega),
          List.getElem?_set_eq_of_lt _ hlen, Nat.sub_self]
        rfl
      · have hj1 : j - (i + 1) + 1 + 1 = j - i + 1 := by omega
        rw [ih (i + 1) _ _ _ (by omega) (by omega) (by simpa using hlen)]
        show _ = some (stepFrom (colorStep i cur) (i + 1) (j - i + 1 - 1))
        have : j - i + 1 - 1 = j - (i + 1) + 1 := by omega
        rw [this]

theorem resizeColors_initColors_length (n : ℕ) :
    (resizeColors initColors n).length = n := by
  simp [resizeColors, initColors]
  omega

theorem set_colors_length (n : ℕ) : (set_colors n).length = n := by
  rw [set_colors, color_loop_length, resizeColors_initColors_length]

theorem set_colors_getD_lt5 (n j : ℕ) (hj : j < 5) (hjn : j < n) (d : IColor) :
    (set_colors n).getD j d = initColors.getD j d := by
  rw [List.getD_eq_getElem?_getD, List.getD_eq_getElem?_getD, set_colors,
    color_loop_getElem_lt _ _ _ _ _ hj, resizeColors]
  rw [List.getElem?_append_left (by simp [initColors]; omega)]
  rw [List.getElem?_take_of_lt hjn]

theorem set_colors_getD_ge5 (n j : ℕ) (h5 : 5 ≤ j) (hn : j < n) :
    (set_colors n).getD j ⟨0, 0, 0, 0⟩ = loopState (j - 4) := by
  rw [List.getD_eq_getElem?_getD, set_colors,
    color_loop_getElem_ge _ _ _ _ _ h5 (by omega)
      (by rw [resizeColors_initColors_length]; exact hn)]
  have : j - 5 + 1 = j - 4 := by omega
  rw [this, loopState_eq_stepFrom]
  rfl

theorem colorStep_a (i : ℕ) (c : IColor) : (colorStep i c).a = c.a := by
  unfold colorStep
  split <;> split <;> split <;> rfl

theorem loopState_a (k : ℕ) : (loopState k).a = 0 := by
  induction k with
  | zero => rfl
  | succ k ih => rw [loopState, colorStep_a, ih]

theorem calculate_roots_length (n : ℕ) : (calculate_roots n).length = n := by
  simp [calculate_roots]

theorem calculate_roots_getD (n i : ℕ) (h : i < n) :
    (calculate_roots n).getD i (0, 0) =
      (Real.cos (2 * Real.pi * i / n), Real.sin (2 * Real.pi * i / n)) := by
  rw [List.getD_eq_getElem?_getD, calculate_roots, List.getElem?_ofFn]
  simp [List.ofFnNthVal, h]

theorem toC_root (n i : ℕ) (h : i < n) :
    toC ((calculate_roots n).getD i (0, 0)) =
      Complex.exp ((2 * Real.pi * i / n : ℝ) * Complex.I) := by
  rw [calculate_roots_getD n i h]
  apply Complex.ext
  · exact (Complex.exp_ofReal_mul_I_re _).symm
  · exact (Complex.exp_ofReal_mul_I_im _).symm

theorem abs_lt_of_sq (w : ℂ) (c : ℝ) (hc : 0 ≤ c)
    (h : w.re ^ 2 + w.im ^ 2 < c ^ 2) : Complex.abs w < c := by
  have hsq : Complex.abs w ^ 2 < c ^ 2 := by
    rw [Complex.sq_abs, Complex.normSq_apply]
    nlinarith [h]
  nlinarith [Complex.abs.nonneg w, hsq]

theorem abs_le_of_sq (w : ℂ) (c : ℝ) (hc : 0 ≤ c)
    (h : w.re ^ 2 + w.im ^ 2 ≤ c ^ 2) : Complex.abs w ≤ c := by
  have hsq : Complex.abs w ^ 2 ≤ c ^ 2 := by
    rw [Complex.sq_abs, Complex.normSq_apply]
    nlinarith [h]
  nlinarith [Complex.abs.nonneg w, hsq]

theorem not_abs_lt_of_sq (w : ℂ) (c : ℝ)
    (h : c ^ 2 ≤ w.re ^ 2 + w.im ^ 2) : ¬ Complex.abs w < c := by
  have hsq : c ^ 2 ≤ Complex.abs w ^ 2 := by
    rw [Complex.sq_abs, Complex.normSq_apply]
    nlinarith [h]
  intro hlt
  nlinarith [Complex.abs.nonneg w, hsq]

theorem not_abs_le_of_sq (w : ℂ) (c : ℝ)
    (h : c ^ 2 < w.re ^ 2 + w.im ^ 2) : ¬ Complex.abs w ≤ c := by
  have hsq : c ^ 2 < Complex.abs w ^ 2 := by
    rw [Complex.sq_abs, Complex.normSq_apply]
    nlinarith [h]
  intro hle
  nlinarith [Complex.abs.nonneg w, hsq]

theorem tol_pos : (0 : ℝ) < tol := by norm_num [tol]

theorem scanRoots_eq_some_iff (roots : List (ℝ × ℝ)) (z : ℂ) :
    ∀ i, scanRoots roots z = some i ↔
      i < roots.length ∧
      Complex.abs (z - toC (roots.getD i (0, 0))) < tol ∧
      ∀ j, j < i → ¬ Complex.abs (z - toC (roots.getD j (0, 0))) < tol := by
  induction roots with
  | nil => intro i; simp [scanRoots]
  | cons p ps ih =>
      intro i
      rw [scanRoots]
      by_cases h : Complex.abs (z - toC p) < tol
      · rw [if_pos h]
        cases i with
        | zero => simp [h]
        | succ k =>
            simp only [List.getD_cons_succ, List.length_cons]
            constructor
            · intro hcontra; exact absurd hcontra (by simp)
            · rintro ⟨-, -, hall⟩
              exact absurd h (by simpa using hall 0 (by omega))
      · rw [if_neg h]
        cases i with
        | zero =>
            simp only [List.getD_cons_zero, List.length_cons]
            constructor
            · intro hcontra
              rcases Option.map_eq_some'.mp hcontra with ⟨k, -, hk⟩
              omega
            · rintro ⟨-, habs, -⟩
              exact absurd habs h
        | succ k =>
            simp only [List.getD_cons_succ, List.length_cons]
            constructor
            · intro hmap
              rcases Option.map_eq_some'.mp hmap with ⟨k', hk', hkk⟩
              have hk : k' = k := by omega
              rw [hk] at hk'
              rcases (ih k).mp hk' with ⟨h1, h2, h3⟩
              refine ⟨by omega, h2, ?_⟩
              intro j hj
              cases j with
              | zero => simpa using h
              | succ j' => simpa using h3 j' (by omega)
            · rintro ⟨h1, h2, h3⟩
              have hk : scanRoots ps z = some k := by
                refine (ih k).mpr ⟨by omega, h2, ?_⟩
                intro j hj
                simpa using h3 (j + 1) (by omega)
              rw [hk]
              rfl

theorem pixel_loop_eq_trace (roots : List (ℝ × ℝ)) (colors : List IColor) :
    ∀ (fuel : ℕ) (z : ℂ),
    pixel_loop roots colors fuel z =
      (match trace_loop roots fuel z with
       | some p =>
           ColorBrightness (to_raylib (colors.getD p.1 ⟨0, 0, 0, 0⟩))
             ((-2 * (p.1 : ℝ)) / 42 + 1 / 2)
       | none => DARKGREEN) := by
  intro fuel
  induction fuel with
  | zero => intro z; rfl
  | succ fuel ih =>
      intro z
      rw [pixel_loop_succ, trace_loop_succ]
      by_cases hd : Complex.abs (derivativeF z roots.length) ≤ tol
      · rw [if_pos hd, if_pos hd]
      · rw [if_neg hd, if_neg hd]
        cases hscan : scanRoots roots (newton_update z roots.length) with
        | some i => rfl
        | none =>
            rw [ih]
            cases trace_loop roots fuel (newton_update z roots.length) with
            | some p => rfl
            | none => rfl

theorem ColorBrightness_a (c : RColor) (f : ℝ) : (ColorBrightness c f).a = c.a := by
  unfold ColorBrightness
  dsimp only
  rw [apply_ite RColor.a]
  simp

theorem pixel_loop_a (roots : List (ℝ × ℝ)) (colors : List IColor) :
    ∀ (fuel : ℕ) (z : ℂ), (pixel_loop roots colors fuel z).a = 255 := by
  intro fuel
  induction fuel with
  | zero => intro z; rfl
  | succ fuel ih =>
      intro z
      rw [pixel_loop_succ]
      by_cases hd : Complex.abs (derivativeF z roots.length) ≤ tol
      · rw [if_pos hd]; rfl
      · rw [if_neg hd]
        cases scanRoots roots (newton_update z roots.length) with
        | some i => exact ColorBrightness_a _ _
        | none => exact ih _

theorem calculate_single_pixel_a (z : ℂ) (roots : List (ℝ × ℝ))
    (colors : List IColor) : (calculate_single_pixel z roots colors).a = 255 :=
  pixel_loop_a roots colors 42 z

theorem ColorBrightness_eval_nonneg (c : RColor) (f : ℝ) (h0 : 0 ≤ f) (h1 : f ≤ 1) :
    ColorBrightness c f =
      ⟨(⌊(255 - (c.r : ℝ)) * f + c.r⌋).toNat, (⌊(255 - (c.g : ℝ)) * f + c.g⌋).toNat,
       (⌊(255 - (c.b : ℝ)) * f + c.b⌋).toNat, c.a⟩ := by
  have hA : ¬ f > 1 := by linarith
  have hB : ¬ f < -1 := by linarith
  have hC : ¬ f < 0 := by linarith
  unfold ColorBrightness
  rw [if_neg hA, if_neg hB, if_neg hC]

theorem pixel_loop_stuck (roots : List (ℝ × ℝ)) (colors : List IColor) (z : ℂ)
    (hfix : newton_update z roots.length = z)
    (hd : ¬ Complex.abs (derivativeF z roots.length) ≤ tol)
    (hscan : scanRoots roots z = none) :
    ∀ fuel, pixel_loop roots colors fuel z = DARKGREEN := by
  intro fuel
  induction fuel with
  | zero => rfl
  | succ fuel ih =>
      rw [pixel_loop_succ, if_neg hd, hfix, hscan]
      exact ih

theorem floorToNat_eval (x : ℝ) (m : ℕ) (h1 : (m : ℝ) ≤ x) (h2 : x < m + 1) :
    (⌊x⌋).toNat = m := by
  have hfl : ⌊x⌋ = (m : ℤ) := by
    rw [Int.floor_eq_iff]
    push_cast
    exact ⟨h1, h2⟩
  rw [hfl]
  exact Int.toNat_natCast m

theorem ColorBrightness_eval_components (c : RColor) (f : ℝ) (h0 : 0 ≤ f)
    (h1 : f ≤ 1) (r g b : ℕ)
    (hr : (⌊(255 - (c.r : ℝ)) * f + c.r⌋).toNat = r)
    (hg : (⌊(255 - (c.g : ℝ)) * f + c.g⌋).toNat = g)
    (hb : (⌊(255 - (c.b : ℝ)) * f + c.b⌋).toNat = b) :
    ColorBrightness c f = ⟨r, g, b, c.a⟩ := by
  rw [ColorBrightness_eval_nonneg c f h0 h1, hr, hg, hb]

theorem ColorBrightness_pink_half :
    ColorBrightness (⟨255, 109, 194, 255⟩ : RColor) (1 / 2) =
      ⟨255, 182, 224, 255⟩ :=
  ColorBrightness_eval_components _ _ (by norm_num) (by norm_num) _ _ _
    (floorToNat_eval _ 255 (by push_cast; norm_num) (by push_cast; norm_num))
    (floorToNat_eval _ 182 (by push_cast; norm_num) (by push_cast; norm_num))
    (floorToNat_eval _ 224 (by push_cast; norm_num) (by push_cast; norm_num))

theorem derivF_ofReal_two (q : ℝ) :
    derivativeF ((q : ℝ) : ℂ) 2 = ((2 * q : ℝ) : ℂ) := by
  unfold derivativeF
  push_cast
  ring

theorem deriv_ok_two (q : ℝ) (h : tol ^ 2 < (2 * q) ^ 2) :
    ¬ Complex.abs (derivativeF ((q : ℝ) : ℂ) 2) ≤ tol := by
  rw [derivF_ofReal_two]
  apply not_abs_le_of_sq
  rw [Complex.ofReal_re, Complex.ofReal_im]
  nlinarith [h]

theorem newton_ofReal_two (q q' : ℝ) (hq : q - (q ^ 2 - 1) / (2 * q) = q') :
    newton_update ((q : ℝ) : ℂ) 2 = ((q' : ℝ) : ℂ) := by
  unfold newton_update functionF derivativeF
  rw [← hq]
  have h21 : (2 : ℕ) - 1 = 1 := rfl
  rw [h21]
  push_cast
  ring

theorem re_ofReal_sub_toC (q a b : ℝ) : (((q : ℝ) : ℂ) - toC (a, b)).re = q - a := by
  simp [toC, Complex.sub_re]

theorem im_ofReal_sub_toC (q a b : ℝ) : (((q : ℝ) : ℂ) - toC (a, b)).im = -b := by
  simp [toC, Complex.sub_im]

theorem scanRoots_pair_none (q : ℝ)
    (h1 : ¬ Complex.abs ((q : ℂ) - toC (1, 0)) < tol)
    (h2 : ¬ Complex.abs ((q : ℂ) - toC (-1, 0)) < tol) :
    scanRoots [((1 : ℝ), (0 : ℝ)), ((-1 : ℝ), (0 : ℝ))] ((q : ℝ) : ℂ) = none := by
  rw [scanRoots, if_neg h1, scanRoots, if_neg h2]
  rfl

theorem scanRoots_pair_hit (q : ℝ)
    (h1 : Complex.abs ((q : ℂ) - toC (1, 0)) < tol) :
    scanRoots [((1 : ℝ), (0 : ℝ)), ((-1 : ℝ), (0 : ℝ))] ((q : ℝ) : ℂ) = some 0 := by
  rw [scanRoots, if_pos h1]

theorem trace_pair_step (fuel : ℕ) (q q' : ℝ)
    (hd : ¬ Complex.abs (derivativeF ((q : ℝ) : ℂ) 2) ≤ tol)
    (hup : newton_update ((q : ℝ) : ℂ) 2 = ((q' : ℝ) : ℂ))
    (hscan : scanRoots [((1 : ℝ), (0 : ℝ)), ((-1 : ℝ), (0 : ℝ))] ((q' : ℝ) : ℂ) = none) :
    trace_loop [((1 : ℝ), (0 : ℝ)), ((-1 : ℝ), (0 : ℝ))] (fuel + 1) ((q : ℝ) : ℂ) =
      (trace_loop [((1 : ℝ), (0 : ℝ)), ((-1 : ℝ), (0 : ℝ))] fuel ((q' : ℝ) : ℂ)).map
        (fun p => (p.1, p.2 + 1)) := by
  rw [trace_loop_succ,
    show ([((1 : ℝ), (0 : ℝ)), ((-1 : ℝ), (0 : ℝ))] : List (ℝ × ℝ)).length = 2 from rfl,
    if_neg hd, hup, hscan]

theorem trace_pair_hit (fuel : ℕ) (q q' : ℝ)
    (hd : ¬ Complex.abs (derivativeF ((q : ℝ) : ℂ) 2) ≤ tol)
    (hup : newton_update ((q : ℝ) : ℂ) 2 = ((q' : ℝ) : ℂ))
    (hscan : scanRoots [((1 : ℝ), (0 : ℝ)), ((-1 : ℝ), (0 : ℝ))] ((q' : ℝ) : ℂ) = some 0) :
    trace_loop [((1 : ℝ), (0 : ℝ)), ((-1 : ℝ), (0 : ℝ))] (fuel + 1) ((q : ℝ) : ℂ) =
      some (0, 1) := by
  rw [trace_loop_succ,
    show ([((1 : ℝ), (0 : ℝ)), ((-1 : ℝ), (0 : ℝ))] : List (ℝ × ℝ)).length = 2 from rfl,
    if_neg hd, hup, hscan]

theorem not_near_root (q a b : ℝ) (h : tol ^ 2 ≤ (q - a) ^ 2 + (-b) ^ 2) :
    ¬ Complex.abs (((q : ℝ) : ℂ) - toC (a, b)) < tol := by
  apply not_abs_lt_of_sq
  rw [re_ofReal_sub_toC, im_ofReal_sub_toC]
  exact h

theorem near_root (q a b : ℝ) (h : (q - a) ^ 2 + (-b) ^ 2 < tol ^ 2) :
    Complex.abs (((q : ℝ) : ℂ) - toC (a, b)) < tol := by
  apply abs_lt_of_sq _ _ (le_of_lt tol_pos)
  rw [re_ofReal_sub_toC, im_ofReal_sub_toC]
  exact h

theorem writePixel_at (W x y : ℕ) (c : RColor) (buf : ℕ → ℕ) (j : ℕ) (hj : j < 4) :
    writePixel W x y c buf ((y * W + x) * 4 + j) = rchannel j c := by
  unfold writePixel rchannel
  interval_cases j
  · rw [if_pos (by omega), if_pos rfl]
  · rw [if_neg (by omega), if_pos (by omega), if_neg (by omega), if_pos rfl]
  · rw [if_neg (by omega), if_neg (by omega), if_pos (by omega),
      if_neg (by omega), if_neg (by omega), if_pos rfl]
  · rw [if_neg (by omega), if_neg (by omega), if_neg (by omega), if_pos (by omega),
      if_neg (by omega), if_neg (by omega), if_neg (by omega)]

theorem writePixel_out (W x y : ℕ) (c : RColor) (buf : ℕ → ℕ) (k : ℕ)
    (h : ¬ ((y * W + x) * 4 ≤ k ∧ k < (y * W + x) * 4 + 4)) :
    writePixel W x y c buf k = buf k := by
  unfold writePixel
  rw [if_neg (by omega), if_neg (by omega), if_neg (by omega), if_neg (by omega)]

theorem rowMajor_ne (W x x₀ y y₀ : ℕ) (hx : x < W) (hx₀ : x₀ < W) (hy : y ≠ y₀) :
    y * W + x ≠ y₀ * W + x₀ := by
  intro h
  apply hy
  have hW : 0 < W := by omega
  have h1 : (y * W + x) / W = y := by
    rw [Nat.mul_comm y W, Nat.mul_add_div hW, Nat.div_eq_of_lt hx, Nat.add_zero]
  have h2 : (y₀ * W + x₀) / W = y₀ := by
    rw [Nat.mul_comm y₀ W, Nat.mul_add_div hW, Nat.div_eq_of_lt hx₀, Nat.add_zero]
  rw [← h1, ← h2, h]

theorem foldX_untouched (g : ℕ → RColor) (W y : ℕ) (l : List ℕ) :
    ∀ (b : ℕ → ℕ) (k : ℕ),
    (∀ x ∈ l, ¬ ((y * W + x) * 4 ≤ k ∧ k < (y * W + x) * 4 + 4)) →
    (l.foldl (fun b' x => writePixel W x y (g x) b') b) k = b k := by
  induction l with
  | nil => intro b k _; rfl
  | cons x xs ih =>
      intro b k h
      rw [List.foldl_cons, ih _ _ (fun x' hx' => h x' (by simp [hx']))]
      exact writePixel_out W x y (g x) b k (h x (by simp))

theorem foldX_written (g : ℕ → RColor) (W y : ℕ) (l : List ℕ) :
    ∀ (b : ℕ → ℕ) (x₀ j : ℕ), l.Nodup → x₀ ∈ l → j < 4 →
    (l.foldl (fun b' x => writePixel W x y (g x) b') b) ((y * W + x₀) * 4 + j) =
      rchannel j (g x₀) := by
  induction l with
  | nil => intro b x₀ j _ hx _; exact absurd hx (by simp)
  | cons x xs ih =>
      intro b x₀ j hnd hx hj
      rw [List.foldl_cons]
      by_cases hxx : x = x₀
      · subst hxx
        have hnotin : x ∉ xs := (List.nodup_cons.mp hnd).1
        rw [foldX_untouched g W y xs _ _ ?_]
        · exact writePixel_at W x y (g x) b j hj
        · intro x' hx'
          have hne : x' ≠ x := fun he => hnotin (he ▸ hx')
          have : y * W + x' ≠ y * W + x := by omega
          omega
      · have hx₀ : x₀ ∈ xs := by
          rcases List.mem_cons.mp hx with h | h
          · exact absurd h.symm hxx
          · exact h
        exact ih _ x₀ j (List.nodup_cons.mp hnd).2 hx₀ hj

theorem foldY_untouched (g : ℕ → ℕ → RColor) (W : ℕ) (l : List ℕ) :
    ∀ (b : ℕ → ℕ) (k : ℕ),
    (∀ y ∈ l, ∀ x, x < W → ¬ ((y * W + x) * 4 ≤ k ∧ k < (y * W + x) * 4 + 4)) →
    (l.foldl
      (fun b y => (List.range W).foldl (fun b' x => writePixel W x y (g x y) b') b)
      b) k = b k := by
  induction l with
  | nil => intro b k _; rfl
  | cons y ys ih =>
      intro b k h
      rw [List.foldl_cons, ih _ _ (fun y' hy' => h y' (by simp [hy']))]
      exact foldX_untouched (fun x => g x y) W y (List.range W) b k
        (fun x hx => h y (by simp) x (List.mem_range.mp hx))

theorem foldY_written (g : ℕ → ℕ → RColor) (W : ℕ) (l : List ℕ) :
    ∀ (b : ℕ → ℕ) (x₀ y₀ j : ℕ), l.Nodup → y₀ ∈ l → x₀ < W → j < 4 →
    (l.foldl
      (fun b y => (List.range W).foldl (fun b' x => writePixel W x y (g x y) b') b)
      b) ((y₀ * W + x₀) * 4 + j) = rchannel j (g x₀ y₀) := by
  induction l with
  | nil => intro b x₀ y₀ j _ hy _ _; exact absurd hy (by simp)
  | cons y ys ih =>
      intro b x₀ y₀ j hnd hy hx₀ hj
      rw [List.foldl_cons]
      by_cases hyy : y = y₀
      · subst hyy
        have hnotin : y ∉ ys := (List.nodup_cons.mp hnd).1
        rw [foldY_untouched g W ys _ _ ?_]
        · exact foldX_written (fun x => g x y) W y (List.range W) b x₀ j
            (List.nodup_range W) (List.mem_range.mpr hx₀) hj
        · intro y' hy' x hx
          have hne : y' ≠ y := fun he => hnotin (he ▸ hy')
          have hoff : y' * W + x ≠ y * W + x₀ := rowMajor_ne W x x₀ y' y hx hx₀ hne
          omega
      · have hy₀ : y₀ ∈ ys := by
          rcases List.mem_cons.mp hy with h | h
          · exact absurd h.symm hyy
          · exact h
        exact ih _ x₀ y₀ j (List.nodup_cons.mp hnd).2 hy₀ hx₀ hj

theorem calculate_pixels_byte (W H : ℕ) (a : Area) (roots : List (ℝ × ℝ))
    (colors : List IColor) (buf : ℕ → ℕ) (x y j : ℕ)
    (hx : x < W) (hy : y < H) (hj : j < 4) :
    calculate_pixels W H a roots colors buf ((y * W + x) * 4 + j) =
      rchannel j (calculate_single_pixel (pixel_to_complex a x y W H) roots colors) :=
  foldY_written
    (fun x y => calculate_single_pixel (pixel_to_complex a x y W H) roots colors)
    W (List.range H) buf x y j (List.nodup_range H) (List.mem_range.mpr hy) hx hj

theorem root_pow_n (n i : ℕ) (hn : 1 ≤ n) :
    (Complex.exp (((2 * Real.pi * i / n : ℝ) : ℂ) * Complex.I)) ^ n = 1 := by
  rw [← Complex.exp_nat_mul]
  have hn0 : (n : ℂ) ≠ 0 := Nat.cast_ne_zero.mpr (by omega : n ≠ 0)
  have harg : (n : ℂ) * (((2 * Real.pi * i / n : ℝ) : ℂ) * Complex.I) =
      (i : ℂ) * (2 * (Real.pi : ℂ) * Complex.I) := by
    push_cast
    field_simp
    ring
  rw [harg, Complex.exp_nat_mul_two_pi_mul_I]

theorem abs_exp_mul_I_sub_one_sq (x : ℝ) :
    (Complex.abs (Complex.exp ((x : ℝ) * Complex.I) - 1)) ^ 2 =
      2 - 2 * Real.cos x := by
  rw [Complex.sq_abs, Complex.normSq_apply]
  simp only [Complex.sub_re, Complex.sub_im, Complex.exp_ofReal_mul_I_re,
    Complex.exp_ofReal_mul_I_im, Complex.one_re, Complex.one_im, sub_zero]
  nlinarith [Real.sin_sq_add_cos_sq x]

theorem sum_k_choose (n : ℕ) (hn : 1 ≤ n) (e r : ℂ) :
    ∑ k in Finset.range (n + 1),
        (k : ℂ) * (e ^ k * r ^ (n - k) * (n.choose k : ℂ)) =
      (n : ℂ) * e * (e + r) ^ (n - 1) := by
  rw [Finset.sum_range_succ']
  simp only [Nat.cast_zero, zero_mul, add_zero]
  have hcongr : ∀ x ∈ Finset.range n,
      ((x + 1 : ℕ) : ℂ) * (e ^ (x + 1) * r ^ (n - (x + 1)) * (n.choose (x + 1) : ℂ)) =
      (n : ℂ) * e * (e ^ x * r ^ ((n - 1) - x) * ((n - 1).choose x : ℂ)) := by
    intro x hx
    have hxn : x < n := Finset.mem_range.mp hx
    have hch : (x + 1) * n.choose (x + 1) = n * (n - 1).choose x := by
      have h := Nat.succ_mul_choose_eq (n - 1) x
      have hs : (n - 1).succ = n := by omega
      rw [hs] at h
      exact (Nat.mul_comm _ _).trans h.symm
    have hchC : ((x + 1 : ℕ) : ℂ) * (n.choose (x + 1) : ℂ) =
        (n : ℂ) * ((n - 1).choose x : ℂ) := by
      exact_mod_cast congrArg (fun m : ℕ => (m : ℂ)) hch
    have hexp : n - (x + 1) = (n - 1) - x := by omega
    rw [hexp]
    push_cast at hchC ⊢
    linear_combination (e ^ (x + 1) * r ^ ((n - 1) - x)) * hchC
  rw [Finset.sum_congr rfl hcongr, ← Finset.mul_sum]
  congr 1
  have hrange : Finset.range n = Finset.range ((n - 1) + 1) := by
    congr 1
    omega
  rw [hrange]
  exact (add_pow e r (n - 1)).symm

theorem sum_km1_choose (n : ℕ) (hn : 1 ≤ n) (e r : ℂ) :
    ∑ k in Finset.range (n + 1),
        ((k : ℂ) - 1) * (e ^ k * r ^ (n - k) * (n.choose k : ℂ)) =
      (n : ℂ) * e * (e + r) ^ (n - 1) - (e + r) ^ n := by
  have hsplit : ∀ k ∈ Finset.range (n + 1),
      ((k : ℂ) - 1) * (e ^ k * r ^ (n - k) * (n.choose k : ℂ)) =
      (k : ℂ) * (e ^ k * r ^ (n - k) * (n.choose k : ℂ)) -
        e ^ k * r ^ (n - k) * (n.choose k : ℂ) := by
    intro k _
    ring
  rw [Finset.sum_congr rfl hsplit, Finset.sum_sub_distrib, sum_k_choose n hn e r,
    ← add_pow e r n]

theorem sum_tail_id (n : ℕ) (hn : 1 ≤ n) (e r : ℂ) :
    ∑ k in Finset.Icc 2 n,
        ((k : ℂ) - 1) * (e ^ k * r ^ (n - k) * (n.choose k : ℂ)) =
      (n : ℂ) * e * (e + r) ^ (n - 1) - (e + r) ^ n + r ^ n := by
  have hc : (∑ k in Finset.Ico (0 : ℕ) 2,
        ((k : ℂ) - 1) * (e ^ k * r ^ (n - k) * (n.choose k : ℂ))) +
      (∑ k in Finset.Ico 2 (n + 1),
        ((k : ℂ) - 1) * (e ^ k * r ^ (n - k) * (n.choose k : ℂ))) =
      ∑ k in Finset.Ico (0 : ℕ) (n + 1),
        ((k : ℂ) - 1) * (e ^ k * r ^ (n - k) * (n.choose k : ℂ)) :=
    Finset.sum_Ico_consecutive _ (by omega) (by omega)
  have h02 : ∑ k in Finset.Ico (0 : ℕ) 2,
      ((k : ℂ) - 1) * (e ^ k * r ^ (n - k) * (n.choose k : ℂ)) = -(r ^ n) := by
    rw [← Finset.range_eq_Ico, Finset.sum_range_succ, Finset.sum_range_succ,
      Finset.sum_range_zero]
    simp
  have hicc : Finset.Ico 2 (n + 1) = Finset.Icc 2 n := Nat.Ico_succ_right 2 n
  have hrange : Finset.Ico 0 (n + 1) = Finset.range (n + 1) := by
    rw [Finset.range_eq_Ico]
  rw [hicc, hrange, h02, sum_km1_choose n hn e r] at hc
  linear_combination hc

theorem newton_error (n : ℕ) (hn : 1 ≤ n) (r z0 : ℂ) (hrn : r ^ n = 1)
    (hz0 : z0 ≠ 0) :
    newton_update z0 n - r =
      (∑ k in Finset.Icc 2 n,
        ((k : ℂ) - 1) * ((z0 - r) ^ k * r ^ (n - k) * (n.choose k : ℂ))) /
        ((n : ℂ) * z0 ^ (n - 1)) := by
  have hnC : (n : ℂ) ≠ 0 := Nat.cast_ne_zero.mpr (by omega : n ≠ 0)
  have hpow : z0 ^ (n - 1) ≠ 0 := pow_ne_zero _ hz0
  have hid := sum_tail_id n hn (z0 - r) r
  rw [show z0 - r + r = z0 from by ring] at hid
  rw [hid, hrn]
  unfold newton_update functionF derivativeF
  have hzn : z0 ^ n = z0 ^ (n - 1) * z0 := by
    rw [← pow_succ]
    congr 1
    omega
  field_simp
  rw [hzn]
  ring

theorem norm_sum_le (n : ℕ) (r e : ℂ) (hr : Complex.abs r = 1) :
    Complex.abs (∑ k in Finset.Icc 2 n,
        ((k : ℂ) - 1) * (e ^ k * r ^ (n - k) * (n.choose k : ℂ))) ≤
      ∑ k in Finset.Icc 2 n, ((n : ℝ) * Complex.abs e) ^ k := by
  refine (Complex.abs.sum_le _ _).trans (Finset.sum_le_sum ?_)
  intro k hk
  have hk2 : 2 ≤ k := (Finset.mem_Icc.mp hk).1
  have hcast : ((k : ℂ) - 1) = ((k - 1 : ℕ) : ℂ) := by
    push_cast [Nat.cast_sub (by omega : 1 ≤ k)]
    ring
  rw [map_mul, hcast, Complex.abs_natCast, map_mul, map_mul, map_pow, map_pow, hr,
    one_pow, mul_one, Complex.abs_natCast]
  have hnat : (k - 1) * n.choose k ≤ n ^ k := by
    calc (k - 1) * n.choose k ≤ Nat.factorial k * n.choose k := by
          have h1 : k - 1 ≤ Nat.factorial k := le_trans (by omega) (Nat.self_le_factorial k)
          exact Nat.mul_le_mul_right _ h1
    _ = n.descFactorial k := (Nat.descFactorial_eq_factorial_mul_choose n k).symm
    _ ≤ n ^ k := Nat.descFactorial_le_pow n k
  have hreal : ((k - 1 : ℕ) : ℝ) * ((n.choose k : ℕ) : ℝ) ≤ (n : ℝ) ^ k := by
    exact_mod_cast hnat
  rw [mul_pow]
  nlinarith [pow_nonneg (Complex.abs.nonneg e) k, hreal,
    pow_nonneg (by positivity : (0 : ℝ) ≤ (n : ℝ)) k,
    (by positivity : (0 : ℝ) ≤ ((k - 1 : ℕ) : ℝ)),
    (by positivity : (0 : ℝ) ≤ ((n.choose k : ℕ) : ℝ))]

theorem geom_tail (n : ℕ) (t : ℝ) (h0 : 0 ≤ t) (h1 : t < 1) :
    ∑ k in Finset.Icc 2 n, t ^ k ≤ t ^ 2 / (1 - t) := by
  rw [← Nat.Ico_succ_right, Finset.sum_Ico_eq_sum_range]
  have hcongr : ∀ i ∈ Finset.range (n + 1 - 2), t ^ (2 + i) = t ^ 2 * t ^ i :=
    fun i _ => pow_add t 2 i
  rw [Finset.sum_congr rfl hcongr, ← Finset.mul_sum]
  have h1t : 0 < 1 - t := by linarith
  have hgs : ∑ i in Finset.range (n + 1 - 2), t ^ i ≤ 1 / (1 - t) := by
    rw [geom_sum_eq (ne_of_lt h1)]
    have hm : (0 : ℝ) ≤ t ^ (n + 1 - 2) := pow_nonneg h0 _
    rw [show t ^ (n + 1 - 2) - 1 = -(1 - t ^ (n + 1 - 2)) from by ring,
      show t - 1 = -(1 - t) from by ring, neg_div_neg_eq]
    rw [div_le_div_iff h1t h1t]
    nlinarith [hm, h1t]
  calc t ^ 2 * ∑ i in Finset.range (n + 1 - 2), t ^ i ≤ t ^ 2 * (1 / (1 - t)) :=
        mul_le_mul_of_nonneg_left hgs (sq_nonneg t)
  _ = t ^ 2 / (1 - t) := by ring

theorem cos_small_angle_le : Real.cos (2 * Real.pi / 1000) ≤ 1 - 1 / 80000 := by
  have hhalf := Real.sin_sq_eq_half_sub (Real.pi / 1000)
  have harg : 2 * (Real.pi / 1000) = 2 * Real.pi / 1000 := by ring
  rw [harg] at hhalf
  have hπlb : 3.14 < Real.pi := Real.pi_gt_d2
  have hπub : Real.pi < 3.15 := Real.pi_lt_d2
  have hsin := Real.sin_gt_sub_cube (by positivity : 0 < Real.pi / 1000)
    (by nlinarith : Real.pi / 1000 ≤ 1)
  have hu1 : (0.00314 : ℝ) < Real.pi / 1000 := by linarith
  have hu2 : Real.pi / 1000 < 0.00315 := by linarith
  have hcube : (Real.pi / 1000) ^ 3 < 0.00315 ^ 3 :=
    pow_lt_pow_left hu2 (by positivity) (by norm_num)
  have hsin_lb : (0.00313 : ℝ) ≤ Real.sin (Real.pi / 1000) := by nlinarith
  nlinarith [hhalf, hsin_lb]

theorem roots_sep (n : ℕ) (hn2 : 2 ≤ n) (hn1000 : n ≤ 1000) (i j : ℕ)
    (hi : i < n) (hj : j < n) (hij : i ≠ j) :
    1 / 200 ≤ Complex.abs
      (Complex.exp (((2 * Real.pi * i / n : ℝ) : ℂ) * Complex.I) -
       Complex.exp (((2 * Real.pi * j / n : ℝ) : ℂ) * Complex.I)) := by
  have hπ0 : (0 : ℝ) < Real.pi := Real.pi_pos
  have hnR : (0 : ℝ) < (n : ℝ) := by exact_mod_cast (by omega : 0 < n)
  have hnle : (n : ℝ) ≤ 1000 := by exact_mod_cast hn1000
  have hfact : Complex.exp (((2 * Real.pi * i / n : ℝ) : ℂ) * Complex.I) -
      Complex.exp (((2 * Real.pi * j / n : ℝ) : ℂ) * Complex.I) =
      Complex.exp (((2 * Real.pi * j / n : ℝ) : ℂ) * Complex.I) *
        (Complex.exp (((2 * Real.pi * i / n - 2 * Real.pi * j / n : ℝ) : ℂ) *
          Complex.I) - 1) := by
    rw [mul_sub, mul_one, ← Complex.exp_add]
    congr 1
    push_cast
    ring
  rw [hfact, map_mul, Complex.abs_exp_ofReal_mul_I, one_mul]
  have hsq := abs_exp_mul_I_sub_one_sq (2 * Real.pi * i / n - 2 * Real.pi * j / n)
  suffices hcos : Real.cos (2 * Real.pi * i / n - 2 * Real.pi * j / n) ≤
      1 - 1 / 80000 by
    nlinarith [hsq, hcos,
      Complex.abs.nonneg (Complex.exp
        (((2 * Real.pi * i / n - 2 * Real.pi * j / n : ℝ) : ℂ) * Complex.I) - 1)]
  rw [← Real.cos_abs]
  have hdelta : 2 * Real.pi * i / n - 2 * Real.pi * j / n =
      (2 * Real.pi / n) * ((i : ℝ) - (j : ℝ)) := by ring
  have hijZ : ((i : ℤ) - (j : ℤ)) ≠ 0 := sub_ne_zero.mpr (by exact_mod_cast hij)
  have h1le : (1 : ℝ) ≤ |(i : ℝ) - (j : ℝ)| := by
    have h := Int.one_le_abs hijZ
    exact_mod_cast h
  have hub : |(i : ℝ) - (j : ℝ)| ≤ (n : ℝ) - 1 := by
    have h : |(i : ℤ) - (j : ℤ)| ≤ (n : ℤ) - 1 := by
      rw [abs_le]
      omega
    exact_mod_cast h
  have habs' : |2 * Real.pi * i / n - 2 * Real.pi * j / n| =
      (2 * Real.pi / n) * |(i : ℝ) - (j : ℝ)| := by
    rw [hdelta, abs_mul, abs_of_pos (by positivity)]
  have hfr : 2 * Real.pi / 1000 ≤ 2 * Real.pi / n := by
    rw [div_le_div_iff (by norm_num) hnR]
    nlinarith
  have hlo : 2 * Real.pi / 1000 ≤ |2 * Real.pi * i / n - 2 * Real.pi * j / n| := by
    rw [habs']
    nlinarith [hfr, h1le, (by positivity : (0 : ℝ) < 2 * Real.pi / n)]
  have hhi : |2 * Real.pi * i / n - 2 * Real.pi * j / n| ≤
      2 * Real.pi - 2 * Real.pi / n := by
    rw [habs']
    have hxx : (2 * Real.pi / n) * ((n : ℝ) - 1) = 2 * Real.pi - 2 * Real.pi / n := by
      field_simp
      ring
    calc (2 * Real.pi / n) * |(i : ℝ) - (j : ℝ)| ≤
        (2 * Real.pi / n) * ((n : ℝ) - 1) :=
          mul_le_mul_of_nonneg_left hub (by positivity)
    _ = _ := hxx
  have hkey : Real.cos |2 * Real.pi * i / n - 2 * Real.pi * j / n| ≤
      Real.cos (2 * Real.pi / 1000) := by
    rcases le_or_lt |2 * Real.pi * i / n - 2 * Real.pi * j / n| Real.pi with hxpi | hxpi
    · exact Real.cos_le_cos_of_nonneg_of_le_pi (by positivity) hxpi hlo
    · rw [← Real.cos_two_pi_sub]
      apply Real.cos_le_cos_of_nonneg_of_le_pi (by positivity)
      · linarith
      · have h2 : 2 * Real.pi / n ≤
            2 * Real.pi - |2 * Real.pi * i / n - 2 * Real.pi * j / n| := by
          linarith
        linarith
  exact hkey.trans cos_small_angle_le

set_option maxHeartbeats 1000000 in
/-- Quadratic-convergence estimate for one Newton step of z^n - 1 at a point
within the tolerance of an exact root r (|r| = 1, r^n = 1), for n ≤ 1000. -/
theorem newton_step_close (n : ℕ) (hn1 : 1 ≤ n) (hn : n ≤ 1000) (r z0 : ℂ)
    (habs_r : Complex.abs r = 1) (hrn : r ^ n = 1)
    (hεtol : Complex.abs (z0 - r) < tol) :
    (¬ Complex.abs (derivativeF z0 n) ≤ tol) ∧
    Complex.abs (newton_update z0 n - r) ≤ tol / 100 := by
  have htol : tol = 1 / 1000000 := rfl
  have hε0 : 0 ≤ Complex.abs (z0 - r) := Complex.abs.nonneg _
  have hnR : (1 : ℝ) ≤ (n : ℝ) := by exact_mod_cast hn1
  have hnR2 : (n : ℝ) ≤ 1000 := by exact_mod_cast hn
  have habs_z0 : 1 - Complex.abs (z0 - r) ≤ Complex.abs z0 := by
    have htri : Complex.abs r ≤ Complex.abs z0 + Complex.abs (r - z0) := by
      calc Complex.abs r = Complex.abs (z0 + (r - z0)) := by ring_nf
      _ ≤ Complex.abs z0 + Complex.abs (r - z0) := Complex.abs.add_le _ _
    rw [show r - z0 = -(z0 - r) from by ring, Complex.abs.map_neg] at htri
    linarith [habs_r ▸ htri]
  have hz0ne : z0 ≠ 0 := by
    intro h0
    rw [h0, zero_sub, Complex.abs.map_neg, habs_r, htol] at hεtol
    norm_num at hεtol
  have ht : (n : ℝ) * Complex.abs (z0 - r) ≤ 1 / 1000 := by
    have h1 : (n : ℝ) * Complex.abs (z0 - r) ≤ 1000 * Complex.abs (z0 - r) := by
      nlinarith
    have h2 : (1000 : ℝ) * Complex.abs (z0 - r) ≤ 1000 * tol := by
      nlinarith
    rw [htol] at h2
    linarith
  have hb : (1 : ℝ) - ((n - 1 : ℕ) : ℝ) * Complex.abs (z0 - r) ≤
      (1 - Complex.abs (z0 - r)) ^ (n - 1) := by
    have hber := one_add_mul_le_pow
      (show (-2 : ℝ) ≤ -Complex.abs (z0 - r) by nlinarith) (n - 1)
    have heq1 : (1 : ℝ) + ((n - 1 : ℕ) : ℝ) * (-Complex.abs (z0 - r)) =
        1 - ((n - 1 : ℕ) : ℝ) * Complex.abs (z0 - r) := by ring
    have heq2 : (1 : ℝ) + -Complex.abs (z0 - r) = 1 - Complex.abs (z0 - r) := by
      ring
    rw [heq1, heq2] at hber
    exact hber
  have hcast : ((n - 1 : ℕ) : ℝ) ≤ (n : ℝ) := by
    exact_mod_cast Nat.sub_le n 1
  have habs_pow : 1 - (n : ℝ) * Complex.abs (z0 - r) ≤
      Complex.abs z0 ^ (n - 1) := by
    have hpow_mono : (1 - Complex.abs (z0 - r)) ^ (n - 1) ≤
        Complex.abs z0 ^ (n - 1) := by
      apply pow_le_pow_left ?_ habs_z0
      rw [htol] at hεtol
      nlinarith
    nlinarith [hb, hpow_mono, hcast, hε0]
  have hderiv_abs : Complex.abs (derivativeF z0 n) =
      (n : ℝ) * Complex.abs z0 ^ (n - 1) := by
    unfold derivativeF
    rw [map_mul, map_pow, Complex.abs_natCast]
  have hX : (0.999 : ℝ) ≤ Complex.abs z0 ^ (n - 1) := by nlinarith [habs_pow, ht]
  have hDlb : (n : ℝ) * (999 / 1000) ≤ (n : ℝ) * Complex.abs z0 ^ (n - 1) := by
    nlinarith [hX, hnR]
  have hDpos : (0 : ℝ) < (n : ℝ) * Complex.abs z0 ^ (n - 1) := by
    nlinarith [hDlb, hnR]
  constructor
  · rw [hderiv_abs]
    intro hle
    rw [htol] at hle
    nlinarith [hDlb, hnR]
  · have herr := newton_error n hn1 r z0 hrn hz0ne
    have hnum := norm_sum_le n r (z0 - r) habs_r
    have hgeom := geom_tail n ((n : ℝ) * Complex.abs (z0 - r)) (by positivity)
      (by nlinarith [ht])
    have hNub : Complex.abs (∑ k in Finset.Icc 2 n,
        ((k : ℂ) - 1) * ((z0 - r) ^ k * r ^ (n - k) * (n.choose k : ℂ))) ≤
        ((n : ℝ) * Complex.abs (z0 - r)) ^ 2 /
          (1 - (n : ℝ) * Complex.abs (z0 - r)) :=
      le_trans hnum hgeom
    have hA2 : Complex.abs (∑ k in Finset.Icc 2 n,
        ((k : ℂ) - 1) * ((z0 - r) ^ k * r ^ (n - k) * (n.choose k : ℂ))) ≤
        (1 / 900) * ((n : ℝ) * Complex.abs (z0 - r)) := by
      refine le_trans hNub ?_
      rw [div_le_iff (by nlinarith [ht] : (0 : ℝ) <
        1 - (n : ℝ) * Complex.abs (z0 - r))]
      nlinarith [ht, (by positivity : (0 : ℝ) ≤ (n : ℝ) * Complex.abs (z0 - r))]
    rw [herr, map_div₀]
    have hDabs : Complex.abs ((n : ℂ) * z0 ^ (n - 1)) =
        (n : ℝ) * Complex.abs z0 ^ (n - 1) := by
      rw [map_mul, map_pow, Complex.abs_natCast]
    rw [hDabs]
    rw [div_le_div_iff hDpos (by norm_num : (0 : ℝ) < 100)]
    have hmul : (n : ℝ) * Complex.abs (z0 - r) ≤ (n : ℝ) * tol := by
      nlinarith [hεtol, hnR]
    rw [htol]
    rw [htol] at hmul
    nlinarith [hA2, hDlb, hmul, hnR,
      Complex.abs.nonneg (∑ k in Finset.Icc 2 n,
        ((k : ℂ) - 1) * ((z0 - r) ^ k * r ^ (n - k) * (n.choose k : ℂ)))]

theorem claim_C3_scan (n i : ℕ) (z0 : ℂ) (hn1 : 1 ≤ n) (hn : n ≤ 1000)
    (hi : i < n)
    (hz : Complex.abs (z0 - toC ((calculate_roots n).getD i (0, 0))) < tol) :
    (¬ Complex.abs (derivativeF z0 (calculate_roots n).length) ≤ tol) ∧
    scanRoots (calculate_roots n)
      (newton_update z0 (calculate_roots n).length) = some i := by
  have hlen := calculate_roots_length n
  have hroot := toC_root n i hi
  rw [hroot] at hz
  have habs_r : Complex.abs
      (Complex.exp (((2 * Real.pi * i / n : ℝ) : ℂ) * Complex.I)) = 1 :=
    Complex.abs_exp_ofReal_mul_I _
  have hrn := root_pow_n n i hn1
  obtain ⟨hd, hstep⟩ := newton_step_close n hn1 hn _ z0 habs_r hrn hz
  refine ⟨by rw [hlen]; exact hd, ?_⟩
  rw [hlen]
  apply (scanRoots_eq_some_iff _ _ i).mpr
  refine ⟨by rw [hlen]; exact hi, ?_, ?_⟩
  · rw [hroot]
    refine lt_of_le_of_lt hstep ?_
    rw [show tol = 1 / 1000000 from rfl]
    norm_num
  · intro j hj
    rw [toC_root n j (by omega)]
    have hsep := roots_sep n (by omega) hn i j hi (by omega) (by omega)
    intro hlt
    have htri : Complex.abs
        (Complex.exp (((2 * Real.pi * i / n : ℝ) : ℂ) * Complex.I) -
         Complex.exp (((2 * Real.pi * j / n : ℝ) : ℂ) * Complex.I)) ≤
        Complex.abs (newton_update z0 n -
          Complex.exp (((2 * Real.pi * i / n : ℝ) : ℂ) * Complex.I)) +
        Complex.abs (newton_update z0 n -
          Complex.exp (((2 * Real.pi * j / n : ℝ) : ℂ) * Complex.I)) := by
      rw [show Complex.exp (((2 * Real.pi * i / n : ℝ) : ℂ) * Complex.I) -
          Complex.exp (((2 * Real.pi * j / n : ℝ) : ℂ) * Complex.I) =
          -(newton_update z0 n -
            Complex.exp (((2 * Real.pi * i / n : ℝ) : ℂ) * Complex.I)) +
          (newton_update z0 n -
            Complex.exp (((2 * Real.pi * j / n : ℝ) : ℂ) * Complex.I))
        from by ring]
      refine (Complex.abs.add_le _ _).trans ?_
      rw [Complex.abs.map_neg]
    rw [show tol = 1 / 1000000 from rfl] at hstep hlt
    linarith [hsep, htri, hstep, hlt]

theorem exp_seven_million_close :
    Complex.abs (Complex.exp
      (((2 * Real.pi * ((1 : ℕ) : ℝ) / ((7000000 : ℕ) : ℝ) : ℝ) : ℂ) *
        Complex.I) - 1) < tol := by
  have hang : (2 * Real.pi * ((1 : ℕ) : ℝ) / ((7000000 : ℕ) : ℝ)) =
      Real.pi / 3500000 := by
    push_cast
    ring
  rw [show (((2 * Real.pi * ((1 : ℕ) : ℝ) / ((7000000 : ℕ) : ℝ) : ℝ) : ℂ)) =
      ((Real.pi / 3500000 : ℝ) : ℂ) from by rw [hang],
    show tol = 1 / 1000000 from rfl]
  have hsq := abs_exp_mul_I_sub_one_sq (Real.pi / 3500000)
  have hcosb := @Real.one_sub_sq_div_two_le_cos (Real.pi / 3500000)
  have habs0 := Complex.abs.nonneg
    (Complex.exp (((Real.pi / 3500000 : ℝ) : ℂ) * Complex.I) - 1)
  have hπlb : 3.14 < Real.pi := Real.pi_gt_d2
  have hπub : Real.pi < 3.15 := Real.pi_lt_d2
  have hθub : Real.pi / 3500000 < 9 / 10000000 := by linarith
  have hθlb : (0 : ℝ) < Real.pi / 3500000 := by linarith
  have hsqθ : (Real.pi / 3500000) ^ 2 < 81 / 100000000000000 := by
    nlinarith [hθub, hθlb]
  nlinarith [hsq, hcosb, habs0, hsqθ]

theorem ColorBrightness_purple_19_42 :
    ColorBrightness (⟨200, 122, 255, 255⟩ : RColor) (19 / 42) =
      ⟨224, 182, 255, 255⟩ :=
  ColorBrightness_eval_components _ _ (by norm_num) (by norm_num) _ _ _
    (floorToNat_eval _ 224 (by push_cast; norm_num) (by push_cast; norm_num))
    (floorToNat_eval _ 182 (by push_cast; norm_num) (by push_cast; norm_num))
    (floorToNat_eval _ 255 (by push_cast; norm_num) (by push_cast; norm_num))

/- ------------------------------------------------------------------ -/
/- Claim theorems -/
/- ------------------------------------------------------------------ -/

/-- Claim C4: whenever the derivative magnitude at the starting value is at most
the tolerance 1e-6, the kernel returns the dark-green fallback color
immediately, performing no Newton update. -/
theorem claim_C4 (roots : List (ℝ × ℝ)) (colors : List IColor) (z : ℂ)
    (hlen : 1 ≤ roots.length)
    (h : Complex.abs (derivativeF z roots.length) ≤ tol) :
    calculate_single_pixel z roots colors = DARKGREEN := by
  show pixel_loop roots colors (41 + 1) z = DARKGREEN
  rw [pixel_loop_succ, if_pos h]

theorem claim_C4_witness :
    1 ≤ [((1 : ℝ), (0 : ℝ)), (-1, 0)].length ∧
    Complex.abs (derivativeF 0 [((1 : ℝ), (0 : ℝ)), (-1, 0)].length) ≤ tol ∧
    calculate_single_pixel 0 [((1 : ℝ), (0 : ℝ)), (-1, 0)] [] = DARKGREEN := by
  have hlen : 1 ≤ [((1 : ℝ), (0 : ℝ)), (-1, 0)].length := by simp
  have h : Complex.abs (derivativeF 0 [((1 : ℝ), (0 : ℝ)), (-1, 0)].length) ≤ tol := by
    simp [derivativeF, tol]
  exact ⟨hlen, h, claim_C4 _ _ _ hlen h⟩

/-- Claim C7: for positive width and height, pixel (0,0) is mapped exactly to
the lower corner (lower_x, lower_y) of the viewport, because the interpolation
fraction is pixel/extent. -/
theorem claim_C7 (a : Area) (W H : ℕ) (hW : 0 < W) (hH : 0 < H) :
    pixel_to_complex a 0 0 W H = ⟨a.lower_x, a.lower_y⟩ := by
  simp [pixel_to_complex]

theorem claim_C7_witness :
    0 < 7 ∧ 0 < 5 ∧
    pixel_to_complex ⟨-2, 2, -2, 2⟩ 0 0 7 5 = ⟨(-2 : ℝ), (-2 : ℝ)⟩ :=
  ⟨by decide, by decide, claim_C7 ⟨-2, 2, -2, 2⟩ 7 5 (by decide) (by decide)⟩

/-- Claim C9: every viewport reachable from the initial viewport (-2, 2, -2, 2)
by zoom operations (factors 0.9 / 1.1) and pan operations keeps a positive
extent on both axes: upper_x > lower_x and upper_y > lower_y. -/
theorem claim_C9 (ops : List NavOp) :
    (navigate ops).1.lower_x < (navigate ops).1.upper_x ∧
    (navigate ops).1.lower_y < (navigate ops).1.upper_y := by
  have key : ∀ (ops : List NavOp) (s : Area × ℝ), areaInv s.1 →
      areaInv (ops.foldl applyNav s).1 := by
    intro ops
    induction ops with
    | nil => intro s hs; exact hs
    | cons op rest ih =>
        intro s hs
        refine ih (applyNav s op) ?_
        obtain ⟨a, step⟩ := s
        obtain ⟨hx, hy⟩ := hs
        simp only at hx hy
        cases op <;>
          constructor <;>
            simp only [applyNav, zoom] <;>
              nlinarith [hx, hy]
  have h := key ops (⟨-2, 2, -2, 2⟩, 1 / 10) (by constructor <;> norm_num)
  exact h

/-- Claim C6: for every n ≥ 1 the color builder returns exactly n colors; for
n ≤ 5 they are the literal five-entry table truncated to n entries; for every
index i ≥ 5 the entry is obtained from the running color state carried forward
across indices (`loopState (i-5)`) by one loop body `colorStep i`, which bumps
exactly one channel (chosen by i mod 3) by 100 modulo 255. -/
theorem claim_C6 (n : ℕ) (hn : 1 ≤ n) :
    (set_colors n).length = n ∧
    (n ≤ 5 → set_colors n = initColors.take n) ∧
    (∀ i, 5 ≤ i → i < n →
      (set_colors n).getD i ⟨0, 0, 0, 0⟩ = colorStep i (loopState (i - 5)) ∧
      (i % 3 = 0 → colorStep i (loopState (i - 5)) =
        { loopState (i - 5) with r := ((loopState (i - 5)).r + 100) % 255 }) ∧
      (i % 3 = 1 → colorStep i (loopState (i - 5)) =
        { loopState (i - 5) with g := ((loopState (i - 5)).g + 100) % 255 }) ∧
      (i % 3 = 2 → colorStep i (loopState (i - 5)) =
        { loopState (i - 5) with b := ((loopState (i - 5)).b + 100) % 255 })) := by
  refine ⟨set_colors_length n, ?_, ?_⟩
  · intro h5
    have hm : n - 5 = 0 := by omega
    rw [set_colors, hm]
    show resizeColors initColors n = _
    rw [resizeColors]
    have : initColors.length = 5 := by rfl
    rw [this]
    have : n - 5 = 0 := hm
    rw [this, List.replicate_zero, List.append_nil]
  · intro i h5 hn
    have hst : (set_colors n).getD i ⟨0, 0, 0, 0⟩ = loopState (i - 4) :=
      set_colors_getD_ge5 n i h5 hn
    have hidx : i - 4 = (i - 5) + 1 := by omega
    have hcs : loopState (i - 4) = colorStep i (loopState (i - 5)) := by
      rw [hidx, loopState]
      have : 5 + (i - 5) = i := by omega
      rw [this]
    refine ⟨hst.trans hcs, ?_, ?_, ?_⟩
    · intro h0
      simp [colorStep, h0]
    · intro h1
      simp [colorStep, h1]
    · intro h2
      simp [colorStep, h2]

theorem claim_C6_witness :
    1 ≤ 7 ∧
    ((set_colors 7).length = 7 ∧
    (7 ≤ 5 → set_colors 7 = initColors.take 7) ∧
    (∀ i, 5 ≤ i → i < 7 →
      (set_colors 7).getD i ⟨0, 0, 0, 0⟩ = colorStep i (loopState (i - 5)) ∧
      (i % 3 = 0 → colorStep i (loopState (i - 5)) =
        { loopState (i - 5) with r := ((loopState (i - 5)).r + 100) % 255 }) ∧
      (i % 3 = 1 → colorStep i (loopState (i - 5)) =
        { loopState (i - 5) with g := ((loopState (i - 5)).g + 100) % 255 }) ∧
      (i % 3 = 2 → colorStep i (loopState (i - 5)) =
        { loopState (i - 5) with b := ((loopState (i - 5)).b + 100) % 255 }))) :=
  ⟨by decide, claim_C6 7 (by decide)⟩

/-- Claim C10: color-table entries generated for indices i ≥ 5 carry a fourth
component of 0 (the running color is aggregate-initialized with three
components), the five fixed entries carry 255, and the conversion to a display
color discards the table's fourth component and always emits alpha 255. -/
theorem claim_C10 (n i : ℕ) (h5 : 5 ≤ i) (hn : i < n) :
    ((set_colors n).getD i ⟨0, 0, 0, 0⟩).a = 0 ∧
    (∀ j, j < 5 → j < n → ((set_colors n).getD j ⟨0, 0, 0, 0⟩).a = 255) ∧
    (∀ c : IColor, (to_raylib c).a = 255) := by
  refine ⟨?_, ?_, fun c => rfl⟩
  · rw [set_colors_getD_ge5 n i h5 hn, loopState_a]
  · intro j hj hjn
    rw [set_colors_getD_lt5 n j hj hjn]
    interval_cases j <;> rfl

theorem claim_C10_witness :
    5 ≤ 5 ∧ 5 < 9 ∧
    (((set_colors 9).getD 5 ⟨0, 0, 0, 0⟩).a = 0 ∧
    (∀ j, j < 5 → j < 9 → ((set_colors 9).getD j ⟨0, 0, 0, 0⟩).a = 255) ∧
    (∀ c : IColor, (to_raylib c).a = 255)) :=
  ⟨by decide, by decide, claim_C10 9 5 (by decide) (by decide)⟩

/-- Claim C5: for every n ≥ 1 the root builder returns exactly n roots,
root i = exp(2 pi i / n * I); every root has absolute value 1; the table starts
at angle 0 (root 0 = 1) and consecutive roots advance by the fixed angle
2 pi / n, i.e. the roots are evenly spaced in increasing angular order. -/
theorem claim_C5 (n : ℕ) (hn : 1 ≤ n) :
    (calculate_roots n).length = n ∧
    (∀ i, i < n → toC ((calculate_roots n).getD i (0, 0)) =
      Complex.exp ((2 * Real.pi * i / n : ℝ) * Complex.I)) ∧
    (∀ i, i < n → Complex.abs (toC ((calculate_roots n).getD i (0, 0))) = 1) ∧
    toC ((calculate_roots n).getD 0 (0, 0)) = 1 ∧
    (∀ i, i + 1 < n → toC ((calculate_roots n).getD (i + 1) (0, 0)) =
      toC ((calculate_roots n).getD i (0, 0)) *
        Complex.exp ((2 * Real.pi / n : ℝ) * Complex.I)) := by
  have hform := toC_root n
  refine ⟨calculate_roots_length n, fun i hi => hform i hi, ?_, ?_, ?_⟩
  · intro i hi
    rw [hform i hi]
    exact Complex.abs_exp_ofReal_mul_I _
  · rw [hform 0 (by omega)]
    norm_num
  · intro i hi
    rw [hform (i + 1) hi, hform i (by omega)]
    rw [← Complex.exp_add]
    congr 1
    have hn0 : (n : ℝ) ≠ 0 := Nat.cast_ne_zero.mpr (by omega)
    push_cast
    field_simp
    ring

theorem claim_C5_witness :
    1 ≤ 3 ∧
    ((calculate_roots 3).length = 3 ∧
    (∀ i, i < 3 → toC ((calculate_roots 3).getD i (0, 0)) =
      Complex.exp ((2 * Real.pi * i / 3 : ℝ) * Complex.I)) ∧
    (∀ i, i < 3 → Complex.abs (toC ((calculate_roots 3).getD i (0, 0))) = 1) ∧
    toC ((calculate_roots 3).getD 0 (0, 0)) = 1 ∧
    (∀ i, i + 1 < 3 → toC ((calculate_roots 3).getD (i + 1) (0, 0)) =
      toC ((calculate_roots 3).getD i (0, 0)) *
        Complex.exp ((2 * Real.pi / 3 : ℝ) * Complex.I))) :=
  ⟨by decide, claim_C5 3 (by decide)⟩

/-- Claim C1 (amended: the root-scan comparison is strict, `distance < 1e-6`,
not `≤`): for every state whose derivative check passes, after the Newton
update the kernel scans the root table in index order and, when root i is
within the strict tolerance of the updated value while no lower-index root is,
it returns root i's paired color brightened by (-2 i)/42 + 0.5; in particular
on simultaneous matches the lowest-index root determines the color. -/
theorem claim_C1_amended (roots : List (ℝ × ℝ)) (colors : List IColor) (z : ℂ)
    (fuel i : ℕ)
    (hd : ¬ Complex.abs (derivativeF z roots.length) ≤ tol)
    (hi : i < roots.length)
    (hm : Complex.abs (newton_update z roots.length - toC (roots.getD i (0, 0))) < tol)
    (hfirst : ∀ j, j < i →
      ¬ Complex.abs (newton_update z roots.length - toC (roots.getD j (0, 0))) < tol) :
    pixel_loop roots colors (fuel + 1) z =
      ColorBrightness (to_raylib (colors.getD i ⟨0, 0, 0, 0⟩))
        ((-2 * (i : ℝ)) / 42 + 1 / 2) := by
  rw [pixel_loop_succ, if_neg hd,
    (scanRoots_eq_some_iff roots (newton_update z roots.length) i).mpr
      ⟨hi, hm, hfirst⟩]

theorem claim_C1_amended_witness :
    (¬ Complex.abs (derivativeF 2 ([((1 : ℝ), (0 : ℝ))].length)) ≤ tol) ∧
    (0 < [((1 : ℝ), (0 : ℝ))].length) ∧
    Complex.abs (newton_update 2 ([((1 : ℝ), (0 : ℝ))].length) -
      toC ([((1 : ℝ), (0 : ℝ))].getD 0 (0, 0))) < tol ∧
    pixel_loop [((1 : ℝ), (0 : ℝ))] [⟨255, 109, 194, 255⟩] 42 2 =
      ColorBrightness
        (to_raylib (([⟨255, 109, 194, 255⟩] : List IColor).getD 0 ⟨0, 0, 0, 0⟩))
        ((-2 * ((0 : ℕ) : ℝ)) / 42 + 1 / 2) := by
  have hone : derivativeF 2 ([((1 : ℝ), (0 : ℝ))].length) = 1 := by
    simp [derivativeF]
  have hd : ¬ Complex.abs (derivativeF 2 ([((1 : ℝ), (0 : ℝ))].length)) ≤ tol := by
    rw [hone]
    apply not_abs_le_of_sq
    simp [tol]
    norm_num
  have hupd : newton_update 2 ([((1 : ℝ), (0 : ℝ))].length) = 1 := by
    unfold newton_update functionF derivativeF
    norm_num
  have htoc : toC ((1 : ℝ), (0 : ℝ)) = 1 := by
    apply Complex.ext <;> simp [toC]
  have hm : Complex.abs (newton_update 2 ([((1 : ℝ), (0 : ℝ))].length) -
      toC ([((1 : ℝ), (0 : ℝ))].getD 0 (0, 0))) < tol := by
    rw [hupd]
    simp only [List.getD_cons_zero, htoc, sub_self]
    rw [map_zero]
    exact tol_pos
  exact ⟨hd, by simp, hm,
    claim_C1_amended [((1 : ℝ), (0 : ℝ))] [⟨255, 109, 194, 255⟩] 2 41 0 hd
      (by simp) hm (fun j hj => absurd hj (by omega))⟩

/-- Claim C1 as stated is false: with the single-entry root table
[(1 - 1e-6, 0)] and start z0 = 0, the derivative check passes, the Newton
update lands exactly at distance 1e-6 (≤ tolerance) from root 0, yet the
kernel never returns root 0's brightened color: the scan is strict and the
iteration stays at the fixed point 1 forever, producing DARKGREEN. -/
theorem claim_C1_counterexample : ¬ spec_claim_C1 := by
  intro hclaim
  have hone : derivativeF 2 ([((1 - 1 / 1000000 : ℝ), (0 : ℝ))].length) = 1 := by
    simp [derivativeF]
  have hd : ¬ Complex.abs
      (derivativeF 2 ([((1 - 1 / 1000000 : ℝ), (0 : ℝ))].length)) ≤ tol := by
    rw [hone]
    apply not_abs_le_of_sq
    simp [tol]
    norm_num
  have hupd : newton_update 2 ([((1 - 1 / 1000000 : ℝ), (0 : ℝ))].length) = 1 := by
    unfold newton_update functionF derivativeF
    norm_num
  have hre : ((1 : ℂ) - toC ((1 - 1 / 1000000 : ℝ), (0 : ℝ))).re = 1 / 1000000 := by
    simp [toC, Complex.sub_re]
  have him : ((1 : ℂ) - toC ((1 - 1 / 1000000 : ℝ), (0 : ℝ))).im = 0 := by
    simp [toC, Complex.sub_im]
  have hm : Complex.abs (newton_update 2 ([((1 - 1 / 1000000 : ℝ), (0 : ℝ))].length) -
      toC ([((1 - 1 / 1000000 : ℝ), (0 : ℝ))].getD 0 (0, 0))) ≤ tol := by
    rw [hupd]
    simp only [List.getD_cons_zero]
    apply abs_le_of_sq _ _ (le_of_lt tol_pos)
    rw [hre, him, tol]
    norm_num
  have hclaimed := hclaim [((1 - 1 / 1000000 : ℝ), (0 : ℝ))] [⟨255, 109, 194, 255⟩]
    2 41 0 hd (by simp) hm (fun j hj => absurd hj (by omega))
  have hscan1 : scanRoots [((1 - 1 / 1000000 : ℝ), (0 : ℝ))] 1 = none := by
    rw [scanRoots, if_neg]
    · rfl
    · apply not_abs_lt_of_sq
      rw [hre, him, tol]
      norm_num
  have hd1 : ¬ Complex.abs
      (derivativeF 1 ([((1 - 1 / 1000000 : ℝ), (0 : ℝ))].length)) ≤ tol := by
    have : derivativeF 1 ([((1 - 1 / 1000000 : ℝ), (0 : ℝ))].length) = 1 := by
      simp [derivativeF]
    rw [this]
    apply not_abs_le_of_sq
    simp [tol]
    norm_num
  have hfix : newton_update 1 ([((1 - 1 / 1000000 : ℝ), (0 : ℝ))].length) = 1 := by
    simp [newton_update, functionF, derivativeF]
  have hactual : pixel_loop [((1 - 1 / 1000000 : ℝ), (0 : ℝ))]
      [⟨255, 109, 194, 255⟩] (41 + 1) 2 = DARKGREEN := by
    rw [pixel_loop_succ, if_neg hd, hupd, hscan1]
    exact pixel_loop_stuck _ _ 1 hfix hd1 hscan1 41
  rw [hactual] at hclaimed
  have hfac : ((-2 * ((0 : ℕ) : ℝ)) / 42 + 1 / 2) = 1 / 2 := by norm_num
  rw [hfac] at hclaimed
  have hgetD : (([⟨255, 109, 194, 255⟩] : List IColor).getD 0 ⟨0, 0, 0, 0⟩) =
      ⟨255, 109, 194, 255⟩ := rfl
  rw [hgetD] at hclaimed
  have : (⟨0, 117, 44, 255⟩ : RColor) = ⟨255, 182, 224, 255⟩ := by
    calc (⟨0, 117, 44, 255⟩ : RColor) = DARKGREEN := rfl
    _ = _ := hclaimed.trans ColorBrightness_pink_half
  simp at this

/-- Claim C2 (amended): the shading does not depend on the number of iterations
at all; whenever the iteration converges to root i — at whatever iteration —
the returned color is root i's paired color brightened by the fixed factor
(-2 i)/42 + 0.5, a function of the root index only (both C++ loops use the
variable name i, so the brightness formula reads the inner root index, not the
outer iteration counter). -/
theorem claim_C2_amended (roots : List (ℝ × ℝ)) (colors : List IColor)
    (fuel : ℕ) (z : ℂ) (i k : ℕ)
    (h : trace_loop roots fuel z = some (i, k)) :
    pixel_loop roots colors fuel z =
      ColorBrightness (to_raylib (colors.getD i ⟨0, 0, 0, 0⟩))
        ((-2 * (i : ℝ)) / 42 + 1 / 2) := by
  rw [pixel_loop_eq_trace, h]

theorem claim_C2_amended_witness :
    trace_loop [((1 : ℝ), (0 : ℝ))] 42 2 = some (0, 1) ∧
    pixel_loop [((1 : ℝ), (0 : ℝ))] [⟨255, 109, 194, 255⟩] 42 2 =
      ColorBrightness
        (to_raylib (([⟨255, 109, 194, 255⟩] : List IColor).getD 0 ⟨0, 0, 0, 0⟩))
        ((-2 * ((0 : ℕ) : ℝ)) / 42 + 1 / 2) := by
  have hone : derivativeF 2 ([((1 : ℝ), (0 : ℝ))].length) = 1 := by
    simp [derivativeF]
  have hd : ¬ Complex.abs (derivativeF 2 ([((1 : ℝ), (0 : ℝ))].length)) ≤ tol := by
    rw [hone]
    apply not_abs_le_of_sq
    simp [tol]
    norm_num
  have hupd : newton_update 2 ([((1 : ℝ), (0 : ℝ))].length) = 1 := by
    unfold newton_update functionF derivativeF
    norm_num
  have htoc : toC ((1 : ℝ), (0 : ℝ)) = 1 := by
    apply Complex.ext <;> simp [toC]
  have hscan : scanRoots [((1 : ℝ), (0 : ℝ))] 1 = some 0 := by
    rw [scanRoots, if_pos]
    rw [htoc, sub_self, map_zero]
    exact tol_pos
  have htr : trace_loop [((1 : ℝ), (0 : ℝ))] 42 2 = some (0, 1) := by
    show trace_loop _ (41 + 1) 2 = _
    rw [trace_loop_succ, if_neg hd, hupd, hscan]
  exact ⟨htr, claim_C2_amended _ _ 42 2 0 1 htr⟩

/-- Claim C2 as stated is false: with the exact degree-2 root table
[(1,0), (-1,0)], the start 1 converges to root 0 after a single Newton update
while the start 2 reaches root 0 only at the fourth update, yet both receive
exactly the same color — the shading is not a function of the convergence
speed. -/
theorem claim_C2_counterexample : ¬ spec_claim_C2 := by
  intro hclaim
  have hdA : ¬ Complex.abs (derivativeF ((1 : ℝ) : ℂ) 2) ≤ tol :=
    deriv_ok_two 1 (by rw [tol]; norm_num)
  have hupA : newton_update ((1 : ℝ) : ℂ) 2 = ((1 : ℝ) : ℂ) :=
    newton_ofReal_two 1 1 (by norm_num)
  have hsA : scanRoots [((1 : ℝ), (0 : ℝ)), ((-1 : ℝ), (0 : ℝ))] ((1 : ℝ) : ℂ) =
      some 0 :=
    scanRoots_pair_hit 1 (near_root 1 1 0 (by rw [tol]; norm_num))
  have trA := trace_pair_hit 41 1 1 hdA hupA hsA
  rw [show (41 : ℕ) + 1 = 42 from rfl] at trA
  have hd0 : ¬ Complex.abs (derivativeF ((2 : ℝ) : ℂ) 2) ≤ tol :=
    deriv_ok_two 2 (by rw [tol]; norm_num)
  have hd1 : ¬ Complex.abs (derivativeF ((5 / 4 : ℝ) : ℂ) 2) ≤ tol :=
    deriv_ok_two (5 / 4) (by rw [tol]; norm_num)
  have hd2 : ¬ Complex.abs (derivativeF ((41 / 40 : ℝ) : ℂ) 2) ≤ tol :=
    deriv_ok_two (41 / 40) (by rw [tol]; norm_num)
  have hd3 : ¬ Complex.abs (derivativeF ((3281 / 3280 : ℝ) : ℂ) 2) ≤ tol :=
    deriv_ok_two (3281 / 3280) (by rw [tol]; norm_num)
  have hup0 : newton_update ((2 : ℝ) : ℂ) 2 = ((5 / 4 : ℝ) : ℂ) :=
    newton_ofReal_two 2 (5 / 4) (by norm_num)
  have hup1 : newton_update ((5 / 4 : ℝ) : ℂ) 2 = ((41 / 40 : ℝ) : ℂ) :=
    newton_ofReal_two (5 / 4) (41 / 40) (by norm_num)
  have hup2 : newton_update ((41 / 40 : ℝ) : ℂ) 2 = ((3281 / 3280 : ℝ) : ℂ) :=
    newton_ofReal_two (41 / 40) (3281 / 3280) (by norm_num)
  have hup3 : newton_update ((3281 / 3280 : ℝ) : ℂ) 2 =
      ((21523361 / 21523360 : ℝ) : ℂ) :=
    newton_ofReal_two (3281 / 3280) (21523361 / 21523360) (by norm_num)
  have hs1 : scanRoots [((1 : ℝ), (0 : ℝ)), ((-1 : ℝ), (0 : ℝ))]
      ((5 / 4 : ℝ) : ℂ) = none :=
    scanRoots_pair_none (5 / 4)
      (not_near_root (5 / 4) 1 0 (by rw [tol]; norm_num))
      (not_near_root (5 / 4) (-1) 0 (by rw [tol]; norm_num))
  have hs2 : scanRoots [((1 : ℝ), (0 : ℝ)), ((-1 : ℝ), (0 : ℝ))]
      ((41 / 40 : ℝ) : ℂ) = none :=
    scanRoots_pair_none (41 / 40)
      (not_near_root (41 / 40) 1 0 (by rw [tol]; norm_num))
      (not_near_root (41 / 40) (-1) 0 (by rw [tol]; norm_num))
  have hs3 : scanRoots [((1 : ℝ), (0 : ℝ)), ((-1 : ℝ), (0 : ℝ))]
      ((3281 / 3280 : ℝ) : ℂ) = none :=
    scanRoots_pair_none (3281 / 3280)
      (not_near_root (3281 / 3280) 1 0 (by rw [tol]; norm_num))
      (not_near_root (3281 / 3280) (-1) 0 (by rw [tol]; norm_num))
  have hs4 : scanRoots [((1 : ℝ), (0 : ℝ)), ((-1 : ℝ), (0 : ℝ))]
      ((21523361 / 21523360 : ℝ) : ℂ) = some 0 :=
    scanRoots_pair_hit (21523361 / 21523360)
      (near_root (21523361 / 21523360) 1 0 (by rw [tol]; norm_num))
  have tr3 := trace_pair_hit 38 (3281 / 3280) (21523361 / 21523360) hd3 hup3 hs4
  have tr2 := trace_pair_step 39 (41 / 40) (3281 / 3280) hd2 hup2 hs3
  have tr1 := trace_pair_step 40 (5 / 4) (41 / 40) hd1 hup1 hs2
  have tr0 := trace_pair_step 41 2 (5 / 4) hd0 hup0 hs1
  rw [show (38 : ℕ) + 1 = 39 from rfl] at tr3
  rw [show (39 : ℕ) + 1 = 40 from rfl, tr3] at tr2
  rw [show (40 : ℕ) + 1 = 41 from rfl, tr2] at tr1
  rw [show (41 : ℕ) + 1 = 42 from rfl, tr1] at tr0
  have trB : trace_loop [((1 : ℝ), (0 : ℝ)), ((-1 : ℝ), (0 : ℝ))] 42
      ((2 : ℝ) : ℂ) = some (0, 4) := by
    rw [tr0]
    rfl
  have hne := hclaim [((1 : ℝ), (0 : ℝ)), ((-1 : ℝ), (0 : ℝ))]
    [⟨255, 109, 194, 255⟩, ⟨200, 122, 255, 255⟩] ((1 : ℝ) : ℂ) ((2 : ℝ) : ℂ)
    0 1 4 trA trB (by omega)
  apply hne
  rw [calculate_single_pixel, calculate_single_pixel, pixel_loop_eq_trace,
    pixel_loop_eq_trace, trA, trB]

/-- Claim C8: the raster assembler writes, for every pixel (x, y) with
x < W and y < H, exactly the kernel color of that pixel's complex coordinate
into the four bytes at offset (y*W + x)*4, with the alpha byte exactly 255, and
it overwrites every byte of the W*H*4 buffer (the result does not depend on the
previous buffer contents). -/
theorem claim_C8 (W H : ℕ) (a : Area) (roots : List (ℝ × ℝ))
    (colors : List IColor) (buf buf' : ℕ → ℕ) (x y : ℕ)
    (hx : x < W) (hy : y < H) :
    calculate_pixels W H a roots colors buf ((y * W + x) * 4) =
      (calculate_single_pixel (pixel_to_complex a x y W H) roots colors).r ∧
    calculate_pixels W H a roots colors buf ((y * W + x) * 4 + 1) =
      (calculate_single_pixel (pixel_to_complex a x y W H) roots colors).g ∧
    calculate_pixels W H a roots colors buf ((y * W + x) * 4 + 2) =
      (calculate_single_pixel (pixel_to_complex a x y W H) roots colors).b ∧
    calculate_pixels W H a roots colors buf ((y * W + x) * 4 + 3) = 255 ∧
    (∀ k, k < W * H * 4 →
      calculate_pixels W H a roots colors buf k =
        calculate_pixels W H a roots colors buf' k) := by
  refine ⟨?_, ?_, ?_, ?_, ?_⟩
  · have h := calculate_pixels_byte W H a roots colors buf x y 0 hx hy (by omega)
    rw [Nat.add_zero] at h
    rw [h]
    rfl
  · exact calculate_pixels_byte W H a roots colors buf x y 1 hx hy (by omega)
  · exact calculate_pixels_byte W H a roots colors buf x y 2 hx hy (by omega)
  · have h := calculate_pixels_byte W H a roots colors buf x y 3 hx hy (by omega)
    rw [h]
    show (calculate_single_pixel (pixel_to_complex a x y W H) roots colors).a = 255
    exact calculate_single_pixel_a _ _ _
  · intro k hk
    have hW : 0 < W := by
      rcases Nat.eq_zero_or_pos W with h | h
      · subst h; omega
      · exact h
    have e1 : 4 * (k / 4) + k % 4 = k := Nat.div_add_mod k 4
    have e2 : W * (k / 4 / W) + k / 4 % W = k / 4 := Nat.div_add_mod (k / 4) W
    have hx' : k / 4 % W < W := Nat.mod_lt _ hW
    have hp : k / 4 < W * H := by
      rw [Nat.div_lt_iff_lt_mul (by omega : 0 < 4)]
      omega
    have hy' : k / 4 / W < H := by
      rw [Nat.div_lt_iff_lt_mul hW]
      calc k / 4 < W * H := hp
      _ = H * W := Nat.mul_comm W H
    have e3 : W * (k / 4 / W) = (k / 4 / W) * W := Nat.mul_comm _ _
    have hdecomp : k = ((k / 4 / W) * W + k / 4 % W) * 4 + k % 4 := by omega
    rw [hdecomp,
      calculate_pixels_byte W H a roots colors buf _ _ _ hx' hy'
        (Nat.mod_lt k (by omega)),
      calculate_pixels_byte W H a roots colors buf' _ _ _ hx' hy'
        (Nat.mod_lt k (by omega))]

theorem claim_C8_witness :
    0 < 1 ∧
    (calculate_pixels 1 1 ⟨-2, 2, -2, 2⟩ [((1 : ℝ), (0 : ℝ))]
        [⟨255, 109, 194, 255⟩] (fun _ => 0) ((0 * 1 + 0) * 4) =
      (calculate_single_pixel (pixel_to_complex ⟨-2, 2, -2, 2⟩ 0 0 1 1)
        [((1 : ℝ), (0 : ℝ))] [⟨255, 109, 194, 255⟩]).r ∧
    calculate_pixels 1 1 ⟨-2, 2, -2, 2⟩ [((1 : ℝ), (0 : ℝ))]
        [⟨255, 109, 194, 255⟩] (fun _ => 0) ((0 * 1 + 0) * 4 + 1) =
      (calculate_single_pixel (pixel_to_complex ⟨-2, 2, -2, 2⟩ 0 0 1 1)
        [((1 : ℝ), (0 : ℝ))] [⟨255, 109, 194, 255⟩]).g ∧
    calculate_pixels 1 1 ⟨-2, 2, -2, 2⟩ [((1 : ℝ), (0 : ℝ))]
        [⟨255, 109, 194, 255⟩] (fun _ => 0) ((0 * 1 + 0) * 4 + 2) =
      (calculate_single_pixel (pixel_to_complex ⟨-2, 2, -2, 2⟩ 0 0 1 1)
        [((1 : ℝ), (0 : ℝ))] [⟨255, 109, 194, 255⟩]).b ∧
    calculate_pixels 1 1 ⟨-2, 2, -2, 2⟩ [((1 : ℝ), (0 : ℝ))]
        [⟨255, 109, 194, 255⟩] (fun _ => 0) ((0 * 1 + 0) * 4 + 3) = 255 ∧
    (∀ k, k < 1 * 1 * 4 →
      calculate_pixels 1 1 ⟨-2, 2, -2, 2⟩ [((1 : ℝ), (0 : ℝ))]
          [⟨255, 109, 194, 255⟩] (fun _ => 0) k =
        calculate_pixels 1 1 ⟨-2, 2, -2, 2⟩ [((1 : ℝ), (0 : ℝ))]
          [⟨255, 109, 194, 255⟩] (fun _ => 17) k)) :=
  ⟨by decide,
    claim_C8 1 1 ⟨-2, 2, -2, 2⟩ [((1 : ℝ), (0 : ℝ))] [⟨255, 109, 194, 255⟩]
      (fun _ => 0) (fun _ => 17) 0 0 (by decide) (by decide)⟩

/-- Claim C3 (amended: restricted to degrees n ≤ 1000; for very large n —
e.g. n = 7000000 — adjacent roots of unity are closer together than the
tolerance and the index-ordered scan can return a lower-index root's color):
for every root index i and every start z0 strictly within 1e-6 of root i, the
kernel converges at the very first Newton update and returns color i brightened
by (-2 i)/42 + 0.5. -/
theorem claim_C3_amended (n i : ℕ) (z0 : ℂ) (hn1 : 1 ≤ n) (hn : n ≤ 1000)
    (hi : i < n)
    (hz : Complex.abs (z0 - toC ((calculate_roots n).getD i (0, 0))) < tol) :
    trace_loop (calculate_roots n) 42 z0 = some (i, 1) ∧
    calculate_single_pixel z0 (calculate_roots n) (set_colors n) =
      ColorBrightness (to_raylib ((set_colors n).getD i ⟨0, 0, 0, 0⟩))
        ((-2 * (i : ℝ)) / 42 + 1 / 2) := by
  obtain ⟨hd, hscan⟩ := claim_C3_scan n i z0 hn1 hn hi hz
  constructor
  · show trace_loop _ (41 + 1) z0 = _
    rw [trace_loop_succ, if_neg hd, hscan]
  · show pixel_loop _ _ (41 + 1) z0 = _
    rw [pixel_loop_succ, if_neg hd, hscan]

theorem claim_C3_amended_witness :
    (1 ≤ 2 ∧ 2 ≤ 1000 ∧ 0 < 2) ∧
    Complex.abs (toC ((calculate_roots 2).getD 0 (0, 0)) -
      toC ((calculate_roots 2).getD 0 (0, 0))) < tol ∧
    (trace_loop (calculate_roots 2) 42
        (toC ((calculate_roots 2).getD 0 (0, 0))) = some (0, 1) ∧
      calculate_single_pixel (toC ((calculate_roots 2).getD 0 (0, 0)))
          (calculate_roots 2) (set_colors 2) =
        ColorBrightness (to_raylib ((set_colors 2).getD 0 ⟨0, 0, 0, 0⟩))
          ((-2 * ((0 : ℕ) : ℝ)) / 42 + 1 / 2)) := by
  have hz : Complex.abs (toC ((calculate_roots 2).getD 0 (0, 0)) -
      toC ((calculate_roots 2).getD 0 (0, 0))) < tol := by
    rw [sub_self, map_zero]
    exact tol_pos
  exact ⟨⟨by decide, by decide, by decide⟩, hz,
    claim_C3_amended 2 0 _ (by decide) (by decide) (by decide) hz⟩

/-- Claim C3 as stated is false for very large degrees: at n = 7000000 the
angular spacing 2 pi / n of the roots is below the tolerance, so starting
exactly at root 1 (distance 0 < 1e-6), the Newton update stays at root 1 but
the index-ordered scan first matches root 0 and the kernel returns root 0's
brightened color, not root 1's. -/
theorem claim_C3_counterexample : ¬ spec_claim_C3 := by
  intro hclaim
  have hlen := calculate_roots_length 7000000
  have hroot1 := toC_root 7000000 1 (by norm_num)
  have hroot0 := toC_root 7000000 0 (by norm_num)
  have hz : Complex.abs (toC ((calculate_roots 7000000).getD 1 (0, 0)) -
      toC ((calculate_roots 7000000).getD 1 (0, 0))) < tol := by
    rw [sub_self, map_zero]
    exact tol_pos
  obtain ⟨-, hcolor⟩ := hclaim 7000000 1
    (toC ((calculate_roots 7000000).getD 1 (0, 0))) (by norm_num) (by norm_num) hz
  -- the actual kernel behavior at this start
  have hang : (2 * Real.pi * ((1 : ℕ) : ℝ) / ((7000000 : ℕ) : ℝ)) =
      Real.pi / 3500000 := by
    push_cast
    ring
  have hπlb : 3.14 < Real.pi := Real.pi_gt_d2
  have hπub : Real.pi < 3.15 := Real.pi_lt_d2
  have hd : ¬ Complex.abs (derivativeF
      (toC ((calculate_roots 7000000).getD 1 (0, 0)))
      (calculate_roots 7000000).length) ≤ tol := by
    rw [hlen, hroot1]
    unfold derivativeF
    rw [map_mul, map_pow, Complex.abs_natCast, Complex.abs_exp_ofReal_mul_I,
      one_pow, mul_one, show tol = 1 / 1000000 from rfl]
    norm_num
  have hfix : newton_update (toC ((calculate_roots 7000000).getD 1 (0, 0)))
      (calculate_roots 7000000).length =
      toC ((calculate_roots 7000000).getD 1 (0, 0)) := by
    rw [hlen, hroot1]
    unfold newton_update functionF
    rw [root_pow_n 7000000 1 (by norm_num), sub_self, zero_div, sub_zero]
  have hzero : (2 * Real.pi * ((0 : ℕ) : ℝ) / ((7000000 : ℕ) : ℝ)) = 0 := by
    push_cast
    ring
  have hmatch0 : Complex.abs (toC ((calculate_roots 7000000).getD 1 (0, 0)) -
      toC ((calculate_roots 7000000).getD 0 (0, 0))) < tol := by
    rw [hroot1, hroot0, hzero]
    rw [show ((0 : ℝ) : ℂ) * Complex.I = 0 from by simp, Complex.exp_zero]
    exact exp_seven_million_close
  have hscan0 : scanRoots (calculate_roots 7000000)
      (newton_update (toC ((calculate_roots 7000000).getD 1 (0, 0)))
        (calculate_roots 7000000).length) = some 0 := by
    rw [hfix]
    apply (scanRoots_eq_some_iff _ _ 0).mpr
    refine ⟨by rw [hlen]; norm_num, hmatch0, ?_⟩
    intro j hj
    omega
  have hactual : calculate_single_pixel
      (toC ((calculate_roots 7000000).getD 1 (0, 0)))
      (calculate_roots 7000000) (set_colors 7000000) =
      ColorBrightness (to_raylib ((set_colors 7000000).getD 0 ⟨0, 0, 0, 0⟩))
        ((-2 * ((0 : ℕ) : ℝ)) / 42 + 1 / 2) := by
    show pixel_loop _ _ (41 + 1) _ = _
    rw [pixel_loop_succ, if_neg hd, hscan0]
  have hC0 : (set_colors 7000000).getD 0 ⟨0, 0, 0, 0⟩ = ⟨255, 109, 194, 255⟩ := by
    rw [set_colors_getD_lt5 7000000 0 (by norm_num) (by norm_num)]
    rfl
  have hC1 : (set_colors 7000000).getD 1 ⟨0, 0, 0, 0⟩ = ⟨200, 122, 255, 255⟩ := by
    rw [set_colors_getD_lt5 7000000 1 (by norm_num) (by norm_num)]
    rfl
  rw [hactual, hC0] at hcolor
  rw [hC1] at hcolor
  rw [show ((-2 * ((0 : ℕ) : ℝ)) / 42 + 1 / 2) = 1 / 2 from by norm_num] at hcolor
  rw [show ((-2 * ((1 : ℕ) : ℝ)) / 42 + 1 / 2) = 19 / 42 from by norm_num] at hcolor
  rw [show to_raylib ⟨255, 109, 194, 255⟩ = ⟨255, 109, 194, 255⟩ from rfl,
    show to_raylib ⟨200, 122, 255, 255⟩ = ⟨200, 122, 255, 255⟩ from rfl,
    ColorBrightness_pink_half, ColorBrightness_purple_19_42] at hcolor
  simp at hcolor

end NewtonFractal
